import Mathlib

/-!
Shallow embedding of the exhibitjs core (incremental build engine):
the relation store (`PathPairSet`), the content store collaborator,
the per-invocation import API (`Job` / `BuilderInvocation`), the stage
execution harness (`Builder.execute`) and the pipeline orchestrator
(`Engine.batch`), together with theorems about the behaviour of these
operations.
-/

set_option autoImplicit false

/-- Byte contents of a file.  The JS code treats `Buffer` and `string`
results identically (strings are coerced to buffers), so both are
represented by a single type of byte contents. -/
abbrev Bytes := String

/-- Character-list version of "starts with", used by the path model. -/
def listStarts : List Char → List Char → Bool
  | [], _ => true
  | _ :: _, [] => false
  | a :: as, b :: bs => a == b && listStarts as bs

/-- Whether the first string is a leading part of the second. -/
def strStarts (p s : String) : Bool :=
  listStarts p.toList s.toList

/-- Modelled from the spec: absolute paths (the `path` package is an
external collaborator).  A path is absolute when it starts with a slash. -/
def isAbsolutePath (p : String) : Bool := strStarts "/" p

/-- Modelled from the spec: `resolve(base, p)` from the `path` package
(external collaborator).  An absolute path stands on its own; a relative
path is joined onto the base directory.  (Normalisation of `..` segments
is not modelled; the claims concern only already-normalised paths.) -/
def resolvePath (base p : String) : String :=
  if isAbsolutePath p then p else base ++ "/" ++ p

/-- Modelled from the spec: `subdir(base, p)` from the `subdir` package
(external collaborator): whether `p` lies strictly inside `base`. -/
def subdir (base p : String) : Bool :=
  strStarts (base ++ "/") p

/-- Modelled from the spec: `relative(base, p)` from the `path` package,
in the only form the core uses (making a path inside the base directory
relative to it). -/
def relativeTo (base p : String) : String :=
  if subdir base p then p.drop (base.length + 1) else p

/-- A change descriptor: `{file, contents}` where `contents = none`
denotes a deletion, as produced by the content store and passed between
engine, builders and callers. -/
structure Change where
  file : String
  contents : Option Bytes
deriving Repr, DecidableEq

/-- Modelled from the spec: the content store collaborator
(`virtual-folder`, not part of this repository): a path-to-bytes store
whose `write` reports a change descriptor exactly when the stored bytes
actually change, and `read` returns the stored bytes if any. -/
abbrev Store := List (String × Bytes)

/-- Read the bytes stored for a path, if present. -/
def Store.read (s : Store) (p : String) : Option Bytes :=
  (s.find? (fun e => e.1 = p)).map (fun e => e.2)

/-- Replace the entry for a path (removing it when writing `none`). -/
def Store.set (s : Store) (p : String) : Option Bytes → Store
  | none => s.filter (fun e => decide (e.1 ≠ p))
  | some b => s.filter (fun e => decide (e.1 ≠ p)) ++ [(p, b)]

/-- Modelled from the spec: `write(path, contents|null)` returns a
change descriptor when the stored bytes actually change, and nothing
when the write is a no-op. -/
def Store.write (s : Store) (p : String) (c : Option Bytes) : Store × Option Change :=
  if s.read p = c then (s, none) else (s.set p c, some ⟨p, c⟩)

/-- One step of writing an entry list through a store, keeping the
change descriptor only when the write is a real change. -/
def Store.writeStep (acc : Store × List Change) (e : Change) :
    Store × List Change :=
  match acc.1.write e.file e.contents with
  | (s1, none) => (s1, acc.2)
  | (s1, some c) => (s1, acc.2 ++ [c])

/-- Write a list of `{file, contents}` entries in order, keeping only
the writes the store reports as real changes (the
`filter(map(..., write), identity)` idiom of the source). -/
def Store.writeAll (s : Store) (entries : List Change) : Store × List Change :=
  entries.foldl Store.writeStep (s, [])

/-- JS `Set` built by repeated insertion: deduplicate a list keeping the
first occurrence of each element, preserving insertion order. -/
def dedupKeepFirst (l : List String) : List String :=
  l.foldl (fun acc x => if x ∈ acc then acc else acc ++ [x]) []

/--
The relation store from `src/src/lib/path-pair-set.js`: a list of string
pairs with an idempotent `add`.
-/
abbrev PathPairSet := List (String × String)

/-- The method `PathPairSet#add(left, right)`: append the pair unless already present. -/
def PathPairSet.add (ps : PathPairSet) (left right : String) : PathPairSet :=
  if (left, right) ∈ ps then ps else ps ++ [(left, right)]

/-- The method `PathPairSet#getAllRights()`: the set of right values, as a
deduplicated list in first-occurrence order (JS `Set` iteration order). -/
def PathPairSet.getAllRights (ps : PathPairSet) : List String :=
  dedupKeepFirst (ps.map (fun pr => pr.2))

/-- The method `PathPairSet#getRightsFor(left)`. -/
def PathPairSet.getRightsFor (ps : PathPairSet) (left : String) : List String :=
  dedupKeepFirst ((ps.filter (fun pr => decide (pr.1 = left))).map (fun pr => pr.2))

-- ### Basic lemmas about the store and the pair set

theorem mem_dedupKeepFirst (l : List String) (x : String) :
    x ∈ dedupKeepFirst l ↔ x ∈ l := by
  have key : ∀ (l acc : List String),
      x ∈ l.foldl (fun acc x => if x ∈ acc then acc else acc ++ [x]) acc ↔
        x ∈ acc ∨ x ∈ l := by
    intro l
    induction l with
    | nil => intro acc; simp
    | cons a t ih =>
      intro acc
      by_cases h : a ∈ acc
      · simp only [List.foldl_cons, if_pos h, ih]
        constructor
        · rintro (h1 | h1)
          · exact Or.inl h1
          · exact Or.inr (List.mem_cons_of_mem _ h1)
        · rintro (h1 | h1)
          · exact Or.inl h1
          · rcases List.mem_cons.mp h1 with h2 | h2
            · exact Or.inl (h2 ▸ h)
            · exact Or.inr h2
      · simp only [List.foldl_cons, if_neg h, ih, List.mem_append,
          List.mem_singleton, List.mem_cons]
        tauto
  simpa using key l []

theorem nodup_dedupKeepFirst (l : List String) :
    (dedupKeepFirst l).Nodup := by
  have key : ∀ (l acc : List String), acc.Nodup →
      (l.foldl (fun acc x => if x ∈ acc then acc else acc ++ [x]) acc).Nodup := by
    intro l
    induction l with
    | nil => intro acc h; simpa using h
    | cons a t ih =>
      intro acc h
      by_cases hmem : a ∈ acc
      · simpa [hmem] using ih _ h
      · refine ?_
        have : (acc ++ [a]).Nodup := by
          simp [List.nodup_append, h, hmem]
        simpa [hmem] using ih _ this
  exact key l [] List.nodup_nil

theorem PathPairSet.mem_add (ps : PathPairSet) (l r : String) (x : String × String) :
    x ∈ ps.add l r ↔ x ∈ ps ∨ x = (l, r) := by
  unfold PathPairSet.add
  by_cases h : (l, r) ∈ ps
  · rw [if_pos h]
    constructor
    · exact Or.inl
    · rintro (h1 | h1)
      · exact h1
      · exact h1 ▸ h
  · rw [if_neg h]
    exact List.mem_append.trans (by simp)

theorem PathPairSet.mem_getAllRights (ps : PathPairSet) (r : String) :
    r ∈ ps.getAllRights ↔ ∃ l, (l, r) ∈ ps := by
  unfold PathPairSet.getAllRights
  rw [mem_dedupKeepFirst, List.mem_map]
  constructor
  · rintro ⟨⟨a, b⟩, hmem, rfl⟩
    exact ⟨a, hmem⟩
  · rintro ⟨l, hmem⟩
    exact ⟨(l, r), hmem, rfl⟩

-- ### The per-invocation import API

/-- Failure modes of the import operations. -/
inductive ImportError where
  /-- Resolution escaped the base directory (fatal contract error). -/
  | outsideBase
  /-- `ENOENT`: nothing satisfied the import. -/
  | notFound (target : String)
  /-- The JS `TypeError` raised by `for...of result.accessed` when an
  importer result has no `accessed` field. -/
  | accessedNotIterable
  /-- An importer result whose `accessed` set does not contain its own
  resolved path. -/
  | accessedMissingPath
deriving Repr, DecidableEq

/-- A successful internal import: `{path, contents}`. -/
structure ImportHit where
  path : String
  contents : Bytes
deriving Repr, DecidableEq

namespace BuilderInvocationA

/--
The method `BuilderInvocation#importInternal` from `src/unnamed/part_001`
(lines 54-78): resolve against the base directory, fail when resolution
escapes it, record the dependency edge `(buildPath, resolved)`
unconditionally (before the read), then read from the inbox; a hit
returns `{path, contents}`, a miss fails with `ENOENT`.
Returns the updated importations store together with the outcome.
-/
def importInternal (base buildPath : String) (inbox : Store)
    (importations : PathPairSet) (path : String) :
    PathPairSet × Except ImportError ImportHit :=
  let resolved := resolvePath base path
  if subdir base resolved then
    let importations1 := importations.add buildPath (resolvePath base resolved)
    match inbox.read resolved with
    | some contents => (importations1, .ok ⟨resolved, contents⟩)
    | none => (importations1, .error (.notFound resolved))
  else
    (importations, .error .outsideBase)

end BuilderInvocationA

namespace BuilderInvocationB

/--
The method `BuilderInvocation#importInternal` from
`src/src/lib/builder-invocation.js` (lines 201-223): same resolution,
escape check and read as the `part_001` version, but this version never
touches the importations store (no dependency edge is recorded, neither
on a hit nor on a miss).
-/
def importInternal (base buildPath : String) (inbox : Store)
    (importations : PathPairSet) (path : String) :
    PathPairSet × Except ImportError ImportHit :=
  let resolved := resolvePath base path
  if subdir base resolved then
    match inbox.read resolved with
    | some contents => (importations, .ok ⟨resolved, contents⟩)
    | none => (importations, .error (.notFound resolved))
  else
    (importations, .error .outsideBase)

end BuilderInvocationB

/-- The raw value returned by a user importer function: possibly a
resolved path, possibly contents, and optionally the set of paths it
consulted (`accessed` may be absent, i.e. `undefined`). -/
structure ImporterResult where
  path : Option String
  contents : Option Bytes
  accessed : Option (List String)
deriving Repr, DecidableEq

/-- The `ImportResult` shape cached and returned by `importExternalFile`:
`{contents, path}` exactly as the importer supplied them. -/
structure ImportResult where
  contents : Option Bytes
  path : Option String
deriving Repr, DecidableEq

/-- A user importer function `(path, typeHints) -> ImporterResult | falsy`. -/
abbrev ImporterFn := String → Option (List String) → Option ImporterResult

/-- The external-import cache: normalized key to last `ImportResult`. -/
abbrev ImportCache := List (String × ImportResult)

/-- Look an entry up in the cache. -/
def ImportCache.lookup (cache : ImportCache) (key : String) : Option ImportResult :=
  (cache.find? (fun e => e.1 = key)).map (fun e => e.2)

/-- Store an entry in the cache under a key. -/
def ImportCache.store (cache : ImportCache) (key : String) (r : ImportResult) : ImportCache :=
  cache.filter (fun e => decide (e.1 ≠ key)) ++ [(key, r)]

/-- Path normalisation performed by `importExternalFile`: resolve
against the base directory, then make the path base-relative when it
falls inside the base directory. -/
def normalizeTarget (base path : String) : String :=
  let targetPath := resolvePath base path
  if subdir base targetPath then relativeTo base targetPath else targetPath

/-- The cache key of `Job#importExternalFile`
(`src/src/lib/job.js` lines 134-137, `src/unnamed/part_001` lines
99-101): the normalized target path, plus - when type hints were given -
the hints joined with a newline, in the order given. -/
def cacheKey (targetPath : String) (types : Option (List String)) : String :=
  match types with
  | none => targetPath
  | some ts => targetPath ++ String.intercalate "\n" ts

instance {α β : Type} [DecidableEq α] [DecidableEq β] : DecidableEq (Except α β) := fun a b =>
  match a, b with
  | .error x, .error y =>
      if h : x = y then isTrue (by rw [h]) else isFalse (by intro hh; cases hh; exact h rfl)
  | .ok x, .ok y =>
      if h : x = y then isTrue (by rw [h]) else isFalse (by intro hh; cases hh; exact h rfl)
  | .error _, .ok _ => isFalse (by intro h; cases h)
  | .ok _, .error _ => isFalse (by intro h; cases h)

/-- The outcome of one `importExternalFile` call, with a ghost record
(`invoked`) of each importer invocation made. -/
structure ExternalImportOutcome where
  cache : ImportCache
  importations : PathPairSet
  invoked : List String
  result : Except ImportError ImportResult
deriving Repr, DecidableEq

/-- The `accessed` validation of the importer loop: when the result
carries a resolved path, `accessed` must contain it. -/
def accessedValid (pathOpt : Option String) (acc : List String) : Bool :=
  match pathOpt with
  | some p => decide (p ∈ acc)
  | none => true

/-- The importer loop of `Job#importExternalFile` (`src/src/lib/job.js`
lines 145-182, identical in `src/unnamed/part_001` lines 110-147): try
each importer in order; on a truthy result validate `accessed` when
present, then iterate `result.accessed` unconditionally (a missing
`accessed` therefore raises, as `for...of undefined` throws), recording
a dependency edge for every accessed path; a result with truthy
`contents` or `path` is cached under `key` and returned. -/
def tryImporters (base buildPath targetPath key : String)
    (types : Option (List String)) :
    List ImporterFn → ImportCache → PathPairSet → List String →
    ExternalImportOutcome
  | [], cache, importations, invoked =>
      ⟨cache, importations, invoked, .error (.notFound targetPath)⟩
  | importer :: rest, cache, importations, invoked =>
      let invoked1 := invoked ++ [targetPath]
      match importer targetPath types with
      | none => tryImporters base buildPath targetPath key types rest cache importations invoked1
      | some r =>
          match r.accessed with
          | none => ⟨cache, importations, invoked1, .error .accessedNotIterable⟩
          | some acc =>
              if !accessedValid r.path acc then
                ⟨cache, importations, invoked1, .error .accessedMissingPath⟩
              else
                let importations1 :=
                  acc.foldl (fun ps a => ps.add buildPath (resolvePath base a)) importations
                if r.contents.isSome || r.path.isSome then
                  let finalResult : ImportResult := ⟨r.contents, r.path⟩
                  ⟨cache.store key finalResult, importations1, invoked1, .ok finalResult⟩
                else
                  tryImporters base buildPath targetPath key types rest cache importations1 invoked1

/--
The method `Job#importExternalFile` from `src/src/lib/job.js` (lines 122-182) and
`BuilderInvocation#importExternal` from `src/unnamed/part_001` (lines
87-147): normalize the path, build the cache key, return the cached
`ImportResult` on a hit (invoking no importer), otherwise run the
the importer loop.
-/
def importExternalFile (base buildPath : String) (importers : List ImporterFn)
    (cache : ImportCache) (importations : PathPairSet)
    (path : String) (types : Option (List String)) : ExternalImportOutcome :=
  let targetPath := normalizeTarget base path
  let key := cacheKey targetPath types
  match cache.lookup key with
  | some cachedResult => ⟨cache, importations, [], .ok cachedResult⟩
  | none => tryImporters base buildPath targetPath key types importers cache importations []

-- ### The Stage execution harness (Builder)

/-- One entry of an array-shaped builder return value: either a
well-formed `{file, contents}` object or anything else (which the
normalisation step rejects). -/
inductive ResultItem where
  | valid (file : String) (contents : Bytes)
  | invalid
deriving Repr, DecidableEq

/-- The shapes a builder function can return (after promise
resolution): a buffer or string, an array of `{file, contents}`
objects, a plain mapping object, the job object itself, or any other
non-object value (`undefined`, numbers, booleans, ...). A bare `null`
return is represented separately as `Option.none` at the invocation
level. -/
inductive BuilderResult where
  | bufferContents (c : Bytes)
  | arrayResult (items : List ResultItem)
  | mappingResult (entries : List (String × Bytes))
  | jobResult
  | otherResult (typeName : String)
deriving Repr, DecidableEq

/-- What one invocation of the user builder function does: the resolved
the import paths it records through the import API of the job (in order), and
either a thrown error message or a returned value (`none` = returned
`null`). -/
structure BuildOutcome where
  imports : List String
  result : Except String (Option BuilderResult)

/-- The user builder function, as an opaque deterministic collaborator:
given the build path and its contents it yields a `BuildOutcome`. -/
structure BuildFn where
  run : String → Bytes → BuildOutcome

/-- A stage error: the original cause wrapped with a message label, the
stage name and the build path (`src/src/lib/builder-error.js`). -/
structure BuilderError where
  label : String
  builderName : String
  buildPath : String
  original : String
deriving Repr, DecidableEq

/-- The persistent per-stage state: the dependency store, the output
store and the outbox content store. -/
structure BuilderState where
  importations : PathPairSet
  outputtings : PathPairSet
  outbox : Store
deriving Repr, DecidableEq

/-- JS object update used when an array result is folded into a
mapping: assignment to an existing key overwrites in place, a new key
is appended. -/
def insertAssoc (l : List (String × Bytes)) (k : String) (v : Bytes) :
    List (String × Bytes) :=
  if l.any (fun e => e.1 = k) then
    l.map (fun e => if e.1 = k then (k, v) else e)
  else
    l ++ [(k, v)]

/-- The result normalisation of `Builder#execute`
(`src/src/lib/builder.js` lines 478-506): a buffer/string means "same
path, new contents"; an array of `{file, contents}` objects is folded
into a mapping (rejecting malformed items); a plain mapping passes
through; the job object or any non-object value is rejected. The
error value is the `originalError` message. -/
def normaliseResult (buildPath : String) :
    BuilderResult → Except String (List (String × Bytes))
  | .bufferContents c => .ok [(buildPath, c)]
  | .arrayResult items =>
      items.foldlM
        (fun acc it =>
          match it with
          | .valid f c => Except.ok (insertAssoc acc f c)
          | .invalid =>
              Except.error "Builder return value invalid - got array containing invalid object")
        []
  | .mappingResult entries => .ok entries
  | .jobResult => .error "Builder returned a job object"
  | .otherResult typeName => .error ("Builder return value invalid - got " ++ typeName)

/-- The invocation fan-out of `Builder#execute` (`src/src/lib/builder.js`
lines 411-464), linearised in `buildPaths` order: paths whose inbox read
misses are skipped; for the rest the builder function runs with a fresh
job that records import edges into the new importations store; a
throw is wrapped as a stage error, emitted and turned into a `null`
result.  Returns (new importations, results keyed by build path,
emitted errors). -/
def runInvocations (name base : String) (fn : BuildFn) (inbox : Store) :
    List String → PathPairSet →
    PathPairSet × List (String × Option BuilderResult) × List BuilderError
  | [], importations => (importations, [], [])
  | buildPath :: rest, importations =>
      match inbox.read buildPath with
      | none => runInvocations name base fn inbox rest importations
      | some contents =>
          let outcome := fn.run buildPath contents
          let importations1 :=
            outcome.imports.foldl
              (fun ps importPath => ps.add buildPath (resolvePath base importPath))
              importations
          match outcome.result with
          | .error msg =>
              let next := runInvocations name base fn inbox rest importations1
              (next.1, (buildPath, none) :: next.2.1,
                ⟨"Error from builder", name, buildPath, msg⟩ :: next.2.2)
          | .ok r =>
              let next := runInvocations name base fn inbox rest importations1
              (next.1, (buildPath, r) :: next.2.1, next.2.2)

/-- Look up the invocation result recorded for a build path. -/
def lookupResult (results : List (String × Option BuilderResult)) (p : String) :
    Option (Option BuilderResult) :=
  (results.find? (fun e => e.1 = p)).map (fun e => e.2)

/-- The per-path output recording of `Builder#execute`
(`src/src/lib/builder.js` lines 533-545): each output entry of one
build path's normalised result is resolved against the base directory,
recorded as an output edge and appended to the final results. -/
def recordOutputs (base buildPath : String) (entries : List (String × Bytes))
    (acc : PathPairSet × List Change) : PathPairSet × List Change :=
  entries.foldl
    (fun a e =>
      (a.1.add buildPath (resolvePath base e.1),
        a.2 ++ [⟨resolvePath base e.1, some e.2⟩]))
    acc

/-- The results loop of `Builder#execute` (`src/src/lib/builder.js`
lines 469-547), iterating `buildPaths` in order: a path with no
invocation entry (deleted input) or a `null` result (throw) contributes
nothing; otherwise the return value is normalised - a bad shape throws
a `BuilderError` out of `execute` - and each output entry is recorded
through `recordOutputs`. -/
def processResults (name base : String)
    (results : List (String × Option BuilderResult)) :
    List String → PathPairSet → List Change →
    Except BuilderError (PathPairSet × List Change)
  | [], outputtings, finalResults => .ok (outputtings, finalResults)
  | buildPath :: rest, outputtings, finalResults =>
      match lookupResult results buildPath with
      | some (some r) =>
          match normaliseResult buildPath r with
          | .error msg =>
              .error ⟨"Invalid output from builder", name, buildPath, msg⟩
          | .ok entries =>
              let step := recordOutputs base buildPath entries
                (outputtings, finalResults)
              processResults name base results rest step.1 step.2
      | _ => processResults name base results rest outputtings finalResults

/-- The carry-over step of `Builder#execute` (`src/src/lib/builder.js`
lines 551-566): every pair of the old store whose owner is not in this
batch's build set is re-inserted into the new store. -/
def carryOver (buildPaths : List String) (old : PathPairSet)
    (init : PathPairSet) : PathPairSet :=
  old.foldl (fun acc q => if q.1 ∈ buildPaths then acc else acc.add q.1 q.2) init

/-- The deletion step of `Builder#execute` (`src/src/lib/builder.js`
lines 568-578): one `{path, contents: null}` entry for every old output
path absent from the new output paths. -/
def deletionChanges (oldRights newRights : List String) : List Change :=
  (oldRights.filter (fun p => p ∉ newRights)).map (fun p => ⟨p, none⟩)

/-- The build set of `Builder#execute` (`src/src/lib/builder.js` lines
392-403): all changed internal paths, plus every owner from the old
old importations whose imported path is among the changed paths (internal
or external). -/
def computeBuildPaths (oldImportations : PathPairSet)
    (changedInternal allChanged : List String) : List String :=
  oldImportations.foldl
    (fun set pr =>
      if pr.2 ∈ allChanged then
        (if pr.1 ∈ set then set else set ++ [pr.1])
      else set)
    (dedupKeepFirst changedInternal)

/-- Everything one `Builder#execute` call produces, with ghost fields:
`attempted` is the build set, `raw` the final results before the
outbox write-filter (empty when execute throws). -/
structure ExecuteResult where
  state : BuilderState
  errors : List BuilderError
  attempted : List String
  raw : List Change
  outcome : Except BuilderError (List Change)

/--
The method `Builder#execute` from `src/src/lib/builder.js` (lines 366-609):
compute the build set, fan out the invocations, process the results
(a contract violation throws out of execute, leaving the stage state
untouched), carry over the edges of owners not rebuilt this batch,
append a deletion for every previously output path no longer output,
swap in the new stores and push everything through the outbox keeping
only real changes.
-/
def Builder.execute (name base : String) (fn : BuildFn) (inbox : Store)
    (st : BuilderState) (changedInternal changedExternal : List String) :
    ExecuteResult :=
  let allChanged := changedInternal ++ changedExternal
  let oldImportations := st.importations
  let oldOutputtings := st.outputtings
  let buildPaths := computeBuildPaths oldImportations changedInternal allChanged
  let inv := runInvocations name base fn inbox buildPaths []
  match processResults name base inv.2.1 buildPaths [] [] with
  | .error e => ⟨st, inv.2.2, buildPaths, [], .error e⟩
  | .ok pr =>
      let newOutputtings := carryOver buildPaths oldOutputtings pr.1
      let newImportations := carryOver buildPaths oldImportations inv.1
      let finalRaw := pr.2 ++
        deletionChanges oldOutputtings.getAllRights newOutputtings.getAllRights
      let wr := st.outbox.writeAll finalRaw
      ⟨⟨newImportations, newOutputtings, wr.1⟩, inv.2.2, buildPaths, finalRaw,
        .ok wr.2⟩

-- ### The pipeline orchestrator (Engine)

/-- Static configuration of one stage: its name and builder function. -/
structure StageConfig where
  name : String
  fn : BuildFn

/-- Static engine configuration: base directory and ordered stages. -/
structure EngineConfig where
  base : String
  stages : List StageConfig

/-- Mutable engine state: the busy flag, the initial inbox store, and
the per-stage states (stage `i` reads from stage `i-1`'s outbox, stage
`0` from the initial inbox). -/
structure EngineState where
  batchRunning : Bool
  initialInbox : Store
  builders : List BuilderState
deriving Repr, DecidableEq

/-- The outcome of one `Engine#batch` call, with ghost fields:
`trace` records, in order, each stage index executed together with the
outcome of its `execute` call, and `executed` is the list of those
indices. -/
structure BatchResult where
  state : EngineState
  emitted : List BuilderError
  trace : List (Nat × Except BuilderError (List Change))
  outcome : Except String (List Change)

/-- Indices of the stages whose `execute` ran during the batch. -/
def BatchResult.executed (r : BatchResult) : List Nat :=
  r.trace.map (fun e => e.1)

/-- The stage loop of `Engine#batch` (`src/src/lib/engine.js` lines
115-139): run each builder in turn, feeding it the set of changed files
from the previous step and the shared external-change set;
a rejection from `execute` is caught and re-emitted, leaving the change
list as it was; the loop stops early as soon as the change list is
empty. Returns (new builder states, emitted errors, trace, final
change list). -/
def stagesLoop (base : String) :
    Nat → List (StageConfig × BuilderState) → Store → List Change →
    List String →
    List BuilderState × List BuilderError ×
      List (Nat × Except BuilderError (List Change)) × List Change
  | _, [], _, changes, _ => ([], [], [], changes)
  | idx, (cfg, st) :: rest, inbox, changes, changedExternalPaths =>
      let r := Builder.execute cfg.name base cfg.fn inbox st
        (dedupKeepFirst (changes.map (fun c => c.file))) changedExternalPaths
      match r.outcome with
      | .ok newChanges =>
          if newChanges = [] then
            (r.state :: rest.map (fun e => e.2), r.errors,
              [(idx, .ok newChanges)], newChanges)
          else
            let next := stagesLoop base (idx + 1) rest r.state.outbox newChanges
              changedExternalPaths
            (r.state :: next.1, r.errors ++ next.2.1,
              (idx, .ok newChanges) :: next.2.2.1, next.2.2.2)
      | .error e =>
          if changes = [] then
            (r.state :: rest.map (fun e => e.2), r.errors ++ [e],
              [(idx, .error e)], changes)
          else
            let next := stagesLoop base (idx + 1) rest r.state.outbox changes
              changedExternalPaths
            (r.state :: next.1, r.errors ++ [e] ++ next.2.1,
              (idx, .error e) :: next.2.2.1, next.2.2.2)

/--
The method `Engine#batch` from `src/src/lib/engine.js` (lines 75-154): reject the
call with a busy error (leaving all state untouched) while a batch is
running; otherwise write the input entries into the initial inbox
keeping only real changes, then thread the change set through the
stage loop and return the final change list.
-/
def Engine.batch (cfg : EngineConfig) (E : EngineState)
    (input : List Change) (changedExternalPaths : List String) : BatchResult :=
  if E.batchRunning then
    ⟨E, [], [], .error "Cannot run two batches at the same time"⟩
  else
    let (inbox1, changes) := E.initialInbox.writeAll input
    let extSet := dedupKeepFirst changedExternalPaths
    let looped := stagesLoop cfg.base 0 (cfg.stages.zip E.builders) inbox1 changes extSet
    ⟨⟨false, inbox1, looped.1⟩, looped.2.1, looped.2.2.1, .ok looped.2.2.2⟩

-- ### Helper lemmas about the execute pipeline

theorem mem_computeBuildPaths (oldImportations : PathPairSet)
    (changedInternal allChanged : List String) (p : String) :
    p ∈ computeBuildPaths oldImportations changedInternal allChanged ↔
      p ∈ changedInternal ∨
        ∃ dep, (p, dep) ∈ oldImportations ∧ dep ∈ allChanged := by
  unfold computeBuildPaths
  have key : ∀ (l : PathPairSet) (init : List String),
      p ∈ l.foldl
          (fun set q =>
            if q.2 ∈ allChanged then
              (if q.1 ∈ set then set else set ++ [q.1])
            else set) init ↔
        p ∈ init ∨ ∃ dep, (p, dep) ∈ l ∧ dep ∈ allChanged := by
    intro l
    induction l with
    | nil => intro init; simp
    | cons q t ih =>
      intro init
      rcases q with ⟨a, b⟩
      by_cases hb : b ∈ allChanged
      · by_cases ha : a ∈ init
        · simp only [List.foldl_cons, if_pos hb, if_pos ha, ih]
          constructor
          · rintro (h1 | ⟨d, hd1, hd2⟩)
            · exact Or.inl h1
            · exact Or.inr ⟨d, List.mem_cons_of_mem _ hd1, hd2⟩
          · rintro (h1 | ⟨d, hd1, hd2⟩)
            · exact Or.inl h1
            · rcases List.mem_cons.mp hd1 with h2 | h2
              · rcases Prod.mk.injEq .. ▸ h2 with ⟨rfl, rfl⟩
                exact Or.inl ha
              · exact Or.inr ⟨d, h2, hd2⟩
        · simp only [List.foldl_cons, if_pos hb, if_neg ha, ih, List.mem_append,
            List.mem_singleton]
          constructor
          · rintro ((h1 | h1) | ⟨d, hd1, hd2⟩)
            · exact Or.inl h1
            · exact Or.inr ⟨b, h1 ▸ List.mem_cons_self _ _, hb⟩
            · exact Or.inr ⟨d, List.mem_cons_of_mem _ hd1, hd2⟩
          · rintro (h1 | ⟨d, hd1, hd2⟩)
            · exact Or.inl (Or.inl h1)
            · rcases List.mem_cons.mp hd1 with h2 | h2
              · rcases Prod.mk.injEq .. ▸ h2 with ⟨rfl, rfl⟩
                exact Or.inl (Or.inr rfl)
              · exact Or.inr ⟨d, h2, hd2⟩
      · simp only [List.foldl_cons, if_neg hb, ih]
        constructor
        · rintro (h1 | ⟨d, hd1, hd2⟩)
          · exact Or.inl h1
          · exact Or.inr ⟨d, List.mem_cons_of_mem _ hd1, hd2⟩
        · rintro (h1 | ⟨d, hd1, hd2⟩)
          · exact Or.inl h1
          · rcases List.mem_cons.mp hd1 with h2 | h2
            · rcases Prod.mk.injEq .. ▸ h2 with ⟨rfl, rfl⟩
              exact absurd hd2 hb
            · exact Or.inr ⟨d, h2, hd2⟩
  rw [key, mem_dedupKeepFirst]

theorem execute_attempted (name base : String) (fn : BuildFn) (inbox : Store)
    (st : BuilderState) (changedInternal changedExternal : List String) :
    (Builder.execute name base fn inbox st changedInternal changedExternal).attempted =
      computeBuildPaths st.importations changedInternal
        (changedInternal ++ changedExternal) := by
  unfold Builder.execute
  dsimp only
  split <;> rfl

/--
C1: the build set of a Stage `execute(changedInternal, changedExternal)`
call is exactly `changedInternal` together with every owner holding a
dependency edge, in the pre-batch dependency store, onto some path in
`changedInternal ∪ changedExternal`; in particular a path whose last
build recorded a dependency on a changed path re-enters the build set.
-/
theorem execute_buildSet (name base : String) (fn : BuildFn) (inbox : Store)
    (st : BuilderState) (changedInternal changedExternal : List String)
    (p : String) :
    p ∈ (Builder.execute name base fn inbox st
        changedInternal changedExternal).attempted ↔
      p ∈ changedInternal ∨
        ∃ dep, (p, dep) ∈ st.importations ∧
          (dep ∈ changedInternal ∨ dep ∈ changedExternal) := by
  rw [execute_attempted, mem_computeBuildPaths]
  simp [List.mem_append]

/--
C5: a `batch` call made while a batch is already running fails with the
fatal busy error and leaves the engine state (input store and every
stage's bookkeeping) untouched; no stage is executed and nothing is
emitted.
-/
theorem batch_busy_rejected (cfg : EngineConfig) (E : EngineState)
    (input : List Change) (changedExternalPaths : List String)
    (h : E.batchRunning = true) :
    Engine.batch cfg E input changedExternalPaths =
      ⟨E, [], [], .error "Cannot run two batches at the same time"⟩ := by
  unfold Engine.batch
  rw [h]
  rfl

/-- Witness for C5 at a concrete busy engine state. -/
theorem batch_busy_rejected_witness :
    Engine.batch ⟨"/base", []⟩ ⟨true, [], []⟩ [⟨"/base/a.txt", some "x"⟩] [] =
      ⟨⟨true, [], []⟩, [], [], .error "Cannot run two batches at the same time"⟩ :=
  batch_busy_rejected ⟨"/base", []⟩ ⟨true, [], []⟩ [⟨"/base/a.txt", some "x"⟩] [] rfl

-- ### C6: internal imports

theorem resolvePath_of_absolute (base p : String) (h : isAbsolutePath p = true) :
    resolvePath base p = p := by
  unfold resolvePath
  rw [h]
  rfl

theorem isAbsolutePath_append (base x : String)
    (hbase : isAbsolutePath base = true) :
    isAbsolutePath (base ++ x) = true := by
  unfold isAbsolutePath strStarts at *
  have hdata : (base ++ x).toList = base.toList ++ x.toList := by
    simp [String.toList, String.data_append]
  rw [hdata]
  cases hb : base.toList with
  | nil => rw [hb] at hbase; simp [listStarts] at hbase
  | cons c t =>
      rw [hb] at hbase
      simp only [listStarts, List.cons_append] at hbase ⊢
      simpa [listStarts] using hbase

theorem isAbsolutePath_resolvePath (base p : String)
    (hbase : isAbsolutePath base = true) :
    isAbsolutePath (resolvePath base p) = true := by
  unfold resolvePath
  by_cases h : isAbsolutePath p = true
  · rw [if_pos h]; exact h
  · rw [if_neg h]
    exact isAbsolutePath_append (base ++ "/") p
      (isAbsolutePath_append base "/" hbase)

/--
C6 (amended): for the `part_001` version of `importInternal`: when the
resolved path escapes the base directory the call fails with the fatal
outside-base error touching nothing; otherwise the dependency edge
`(buildPath, resolvedPath)` is recorded unconditionally - also when the
subsequent read misses - and the call returns `{path, contents}` on a
store hit, else fails with NotFound.  (The `builder-invocation.js`
version records no edge at all; see the counterexample.)
-/
theorem importInternal_records_unconditionally
    (base buildPath path : String) (inbox : Store) (importations : PathPairSet)
    (hbase : isAbsolutePath base = true) :
    (subdir base (resolvePath base path) = false →
      BuilderInvocationA.importInternal base buildPath inbox importations path =
        (importations, .error .outsideBase)) ∧
    (subdir base (resolvePath base path) = true →
      (BuilderInvocationA.importInternal base buildPath inbox importations path).1 =
          importations.add buildPath (resolvePath base path) ∧
      (BuilderInvocationA.importInternal base buildPath inbox importations path).2 =
        (match inbox.read (resolvePath base path) with
          | some c => .ok ⟨resolvePath base path, c⟩
          | none => .error (.notFound (resolvePath base path)))) := by
  have hres : resolvePath base (resolvePath base path) = resolvePath base path :=
    resolvePath_of_absolute base _ (isAbsolutePath_resolvePath base path hbase)
  unfold BuilderInvocationA.importInternal
  dsimp only
  constructor
  · intro hout
    rw [hout]
    rfl
  · intro hin
    rw [hin, hres]
    cases hread : (inbox.read (resolvePath base path)) with
    | some c => exact ⟨rfl, rfl⟩
    | none => exact ⟨rfl, rfl⟩

/-- Witness for C6 (amended) at a concrete input whose read misses: the
edge is still recorded. -/
theorem importInternal_records_unconditionally_witness :
    (BuilderInvocationA.importInternal "/base" "/base/a.js" [] [] "x.js").1 =
        PathPairSet.add [] "/base/a.js" "/base/x.js" ∧
    (BuilderInvocationA.importInternal "/base" "/base/a.js" [] [] "x.js").2 =
        .error (.notFound "/base/x.js") := by
  have h := (importInternal_records_unconditionally
    "/base" "/base/a.js" "x.js" [] [] (by decide)).2 (by decide)
  exact ⟨h.1, h.2⟩

/-- Counterexample for C6 as stated: the `builder-invocation.js` version
of `importInternal` (lines 201-223) records no dependency edge even on
a successful in-base import - the importations store comes back empty. -/
theorem importInternal_no_edge_counterexample :
    (BuilderInvocationB.importInternal "/base" "/base/a.js"
        [("/base/x.js", "hi")] [] "x.js").2 = .ok ⟨"/base/x.js", "hi"⟩ ∧
    (BuilderInvocationB.importInternal "/base" "/base/a.js"
        [("/base/x.js", "hi")] [] "x.js").1 = [] ∧
    ("/base/a.js", "/base/x.js") ∉
      (BuilderInvocationB.importInternal "/base" "/base/a.js"
        [("/base/x.js", "hi")] [] "x.js").1 := by
  refine ⟨by decide, by decide, by decide⟩

-- ### C7 and C10: external imports

/--
C7 (amended): `importExternalFile` keys its cache on the normalized
target path plus the type hints joined in the order given (not sorted);
identical path and identical hint sequence hit the same entry, and on a
cache hit the cached `ImportResult` is returned with no importer
invoked and no state touched.  Reordered hints build a different key
and therefore miss the cache (see the counterexample).
-/
theorem importExternalFile_cache_hit (base buildPath path : String)
    (importers : List ImporterFn) (cache : ImportCache)
    (importations : PathPairSet) (types : Option (List String))
    (r : ImportResult)
    (h : cache.lookup (cacheKey (normalizeTarget base path) types) = some r) :
    importExternalFile base buildPath importers cache importations path types =
      ⟨cache, importations, [], .ok r⟩ := by
  unfold importExternalFile
  dsimp only
  rw [h]

/-- Witness for C7 (amended): a concrete cache hit returns the cached
result without invoking the (diverging-free) importer list. -/
theorem importExternalFile_cache_hit_witness :
    importExternalFile "/base" "/base/a.js" []
        [("ext.js" ++ "css\njs", ⟨some "body", some "/x/ext.js"⟩)] []
        "ext.js" (some ["css", "js"]) =
      ⟨[("ext.js" ++ "css\njs", ⟨some "body", some "/x/ext.js"⟩)], [], [],
        .ok ⟨some "body", some "/x/ext.js"⟩⟩ :=
  importExternalFile_cache_hit "/base" "/base/a.js" "ext.js" []
    [("ext.js" ++ "css\njs", ⟨some "body", some "/x/ext.js"⟩)] []
    (some ["css", "js"]) ⟨some "body", some "/x/ext.js"⟩ (by decide)

/-- An importer used by the C7 counterexample: always resolves to a
fixed external file. -/
def fixedImporter : ImporterFn := fun _ _ =>
  some ⟨some "/ext/lib.js", some "libcode", some ["/ext/lib.js"]⟩

/-- Counterexample for C7 as stated: after a first call with type hints
`["a", "b"]` populates the cache, a second call for the same path with
the same hints in the other order does not hit that cache entry - the
the importer is invoked again (the ghost `invoked` list is nonempty),
because the key joins the hints in the given order instead of sorting
them. -/
theorem importExternalFile_hint_order_counterexample :
    (importExternalFile "/base" "/base/a.js" [fixedImporter] [] []
        "/ext/lib.js" (some ["a", "b"])).result =
      .ok ⟨some "libcode", some "/ext/lib.js"⟩ ∧
    (importExternalFile "/base" "/base/a.js" [fixedImporter]
        (importExternalFile "/base" "/base/a.js" [fixedImporter] [] []
          "/ext/lib.js" (some ["a", "b"])).cache []
        "/ext/lib.js" (some ["b", "a"])).invoked = ["/ext/lib.js"] ∧
    cacheKey (normalizeTarget "/base" "/ext/lib.js") (some ["a", "b"]) ≠
      cacheKey (normalizeTarget "/base" "/ext/lib.js") (some ["b", "a"]) := by
  refine ⟨by decide, by decide, by decide⟩

/--
C10: when an importer returns a truthy result whose `accessed` field is
absent, the unguarded `for...of result.accessed` iteration raises an
error: the call fails instead of recording dependency edges, caching or
returning the result - even though the `ImportResult` contract treats
`accessed` as optional.
-/
theorem importExternalFile_accessed_undefined (base buildPath path : String)
    (types : Option (List String)) (importer : ImporterFn)
    (rest : List ImporterFn) (cache : ImportCache)
    (importations : PathPairSet) (r : ImporterResult)
    (hmiss : cache.lookup (cacheKey (normalizeTarget base path) types) = none)
    (himp : importer (normalizeTarget base path) types = some r)
    (hacc : r.accessed = none) :
    importExternalFile base buildPath (importer :: rest) cache importations
        path types =
      ⟨cache, importations, [normalizeTarget base path],
        .error .accessedNotIterable⟩ := by
  unfold importExternalFile
  dsimp only
  rw [hmiss]
  unfold tryImporters
  dsimp only
  rw [himp]
  dsimp only
  rw [hacc]
  simp

/-- Witness for C10 at a concrete importer whose result has no
`accessed` field. -/
theorem importExternalFile_accessed_undefined_witness :
    importExternalFile "/base" "/base/a.js"
        [fun _ _ => some ⟨some "/ext/lib.js", some "libcode", none⟩] [] []
        "/ext/lib.js" none =
      ⟨[], [], ["/ext/lib.js"], .error .accessedNotIterable⟩ :=
  importExternalFile_accessed_undefined "/base" "/base/a.js" "/ext/lib.js" none
    (fun _ _ => some ⟨some "/ext/lib.js", some "libcode", none⟩) [] [] []
    ⟨some "/ext/lib.js", some "libcode", none⟩ (by decide) (by decide) (by decide)

-- ### C8: contract violations abort the whole stage batch

theorem lookupResult_cons (q : String) (v : Option BuilderResult)
    (rest : List (String × Option BuilderResult)) (p : String) :
    lookupResult ((q, v) :: rest) p =
      if q = p then some v else lookupResult rest p := by
  unfold lookupResult
  by_cases h : q = p
  · simp [List.find?, h]
  · simp [List.find?, h]

theorem lookupResult_runInvocations (name base : String) (fn : BuildFn)
    (inbox : Store) (p : String) (c : Bytes) (hread : inbox.read p = some c) :
    ∀ (paths : List String) (imps0 : PathPairSet), p ∈ paths →
      lookupResult (runInvocations name base fn inbox paths imps0).2.1 p =
        some (match (fn.run p c).result with
              | .error _ => none
              | .ok r => r) := by
  intro paths
  induction paths with
  | nil => intro imps0 hmem; cases hmem
  | cons q rest ih =>
    intro imps0 hmem
    by_cases hqp : q = p
    · subst hqp
      unfold runInvocations
      rw [hread]
      dsimp only
      cases hr : (fn.run q c).result with
      | error msg => rw [lookupResult_cons, if_pos rfl]
      | ok r => rw [lookupResult_cons, if_pos rfl]
    · have hp : p ∈ rest := by
        rcases List.mem_cons.mp hmem with h1 | h1
        · exact absurd h1.symm hqp
        · exact h1
      unfold runInvocations
      cases hq : inbox.read q with
      | none => exact ih _ hp
      | some cq =>
          dsimp only
          cases hr : (fn.run q cq).result with
          | error msg =>
              rw [lookupResult_cons, if_neg hqp]
              exact ih _ hp
          | ok r =>
              rw [lookupResult_cons, if_neg hqp]
              exact ih _ hp

theorem processResults_error_of_bad (name base : String)
    (results : List (String × Option BuilderResult)) :
    ∀ (paths : List String) (outs : PathPairSet) (fins : List Change)
      (p : String) (r : BuilderResult) (msg : String),
      p ∈ paths →
      lookupResult results p = some (some r) →
      normaliseResult p r = .error msg →
      ∃ e, processResults name base results paths outs fins = .error e ∧
        e.label = "Invalid output from builder" ∧ e.builderName = name := by
  intro paths
  induction paths with
  | nil => intro _ _ _ _ _ hmem _ _; cases hmem
  | cons q rest ih =>
    intro outs fins p r msg hmem hlook hbad
    unfold processResults
    cases hlq : lookupResult results q with
    | none =>
        have hqp : q ≠ p := by
          intro h
          rw [h, hlook] at hlq
          cases hlq
        have hp : p ∈ rest := by
          rcases List.mem_cons.mp hmem with h1 | h1
          · exact absurd h1.symm hqp
          · exact h1
        exact ih outs fins p r msg hp hlook hbad
    | some v =>
        cases v with
        | none =>
            have hqp : q ≠ p := by
              intro h
              rw [h, hlook] at hlq
              cases hlq
            have hp : p ∈ rest := by
              rcases List.mem_cons.mp hmem with h1 | h1
              · exact absurd h1.symm hqp
              · exact h1
            exact ih outs fins p r msg hp hlook hbad
        | some rq =>
            dsimp only
            cases hn : normaliseResult q rq with
            | error m =>
                exact ⟨⟨"Invalid output from builder", name, q, m⟩, rfl, rfl, rfl⟩
            | ok entries =>
                by_cases hqp : q = p
                · subst hqp
                  rw [hlook] at hlq
                  have hrq : rq = r := by
                    injection hlq with h2
                    injection h2 with h3
                    exact h3.symm
                  rw [hrq, hbad] at hn
                  cases hn
                · have hp : p ∈ rest := by
                    rcases List.mem_cons.mp hmem with h1 | h1
                    · exact absurd h1.symm hqp
                    · exact h1
                  exact ih _ _ p r msg hp hlook hbad

theorem execute_error_case (name base : String) (fn : BuildFn) (inbox : Store)
    (st : BuilderState) (changedInternal changedExternal : List String)
    (e : BuilderError)
    (h : processResults name base
        (runInvocations name base fn inbox
          (computeBuildPaths st.importations changedInternal
            (changedInternal ++ changedExternal)) []).2.1
        (computeBuildPaths st.importations changedInternal
          (changedInternal ++ changedExternal)) [] [] = .error e) :
    Builder.execute name base fn inbox st changedInternal changedExternal =
      ⟨st,
        (runInvocations name base fn inbox
          (computeBuildPaths st.importations changedInternal
            (changedInternal ++ changedExternal)) []).2.2,
        computeBuildPaths st.importations changedInternal
          (changedInternal ++ changedExternal),
        [], .error e⟩ := by
  unfold Builder.execute
  dsimp only
  rw [h]

/--
C8 (amended): when some build path's invocation returns a value that is
not a buffer/string, a well-formed array of file/contents objects, or a
plain mapping (including returning the job object itself), the
contract-violation `BuilderError` is thrown out of the Stage's
`execute` call itself: the whole stage batch is aborted with that error
(so no other build path's output appears in any result list for this
batch) and the stage's dependency/output stores and outbox are left
exactly as they were.
-/
theorem execute_invalid_output_aborts (name base : String) (fn : BuildFn)
    (inbox : Store) (st : BuilderState)
    (changedInternal changedExternal : List String)
    (p : String) (c : Bytes) (r : BuilderResult) (msg : String)
    (hp : p ∈ (Builder.execute name base fn inbox st
        changedInternal changedExternal).attempted)
    (hread : inbox.read p = some c)
    (hrun : (fn.run p c).result = .ok (some r))
    (hbad : normaliseResult p r = .error msg) :
    (∃ e, (Builder.execute name base fn inbox st
          changedInternal changedExternal).outcome = .error e ∧
        e.label = "Invalid output from builder" ∧ e.builderName = name) ∧
    (Builder.execute name base fn inbox st
        changedInternal changedExternal).state = st ∧
    (Builder.execute name base fn inbox st
        changedInternal changedExternal).raw = [] := by
  rw [execute_attempted] at hp
  have hlook := lookupResult_runInvocations name base fn inbox p c hread
    (computeBuildPaths st.importations changedInternal
      (changedInternal ++ changedExternal)) [] hp
  rw [hrun] at hlook
  obtain ⟨e, he, hlabel, hname⟩ := processResults_error_of_bad name base
    (runInvocations name base fn inbox
      (computeBuildPaths st.importations changedInternal
        (changedInternal ++ changedExternal)) []).2.1
    (computeBuildPaths st.importations changedInternal
      (changedInternal ++ changedExternal)) [] [] p r msg hp hlook hbad
  rw [execute_error_case name base fn inbox st changedInternal
    changedExternal e he]
  exact ⟨⟨e, rfl, hlabel, hname⟩, rfl, rfl⟩

/-- Builder function for the C8 scenario: path `/src/a.txt` returns the
job object itself (an invalid shape), every other path returns fresh
contents. -/
def badShapeFn : BuildFn :=
  ⟨fun p c =>
    if p = "/src/a.txt" then ⟨[], .ok (some .jobResult)⟩
    else ⟨[], .ok (some (.bufferContents (c ++ "!")))⟩⟩

/-- Witness for C8 (amended) at a concrete two-path stage batch. -/
theorem execute_invalid_output_aborts_witness :
    (∃ e, (Builder.execute "stage" "/src" badShapeFn
          [("/src/a.txt", "aa"), ("/src/b.txt", "bb")] ⟨[], [], []⟩
          ["/src/a.txt", "/src/b.txt"] []).outcome = .error e ∧
        e.label = "Invalid output from builder" ∧ e.builderName = "stage") ∧
    (Builder.execute "stage" "/src" badShapeFn
        [("/src/a.txt", "aa"), ("/src/b.txt", "bb")] ⟨[], [], []⟩
        ["/src/a.txt", "/src/b.txt"] []).state = ⟨[], [], []⟩ ∧
    (Builder.execute "stage" "/src" badShapeFn
        [("/src/a.txt", "aa"), ("/src/b.txt", "bb")] ⟨[], [], []⟩
        ["/src/a.txt", "/src/b.txt"] []).raw = [] :=
  execute_invalid_output_aborts "stage" "/src" badShapeFn
    [("/src/a.txt", "aa"), ("/src/b.txt", "bb")] ⟨[], [], []⟩
    ["/src/a.txt", "/src/b.txt"] [] "/src/a.txt" "aa" .jobResult
    "Builder returned a job object" (by decide) (by decide) (by decide)
    (by decide)

/-- Counterexample for C8 as stated: in a concrete batch where
`/src/a.txt` returns an invalid shape while `/src/b.txt` builds
successfully, the stage's `execute` rejects as a whole - there is no
result list, so the successful output of `/src/b.txt` appears nowhere,
refuting "fatal only for that single build path". -/
theorem execute_invalid_output_counterexample :
    (Builder.execute "stage" "/src" badShapeFn
        [("/src/a.txt", "aa"), ("/src/b.txt", "bb")] ⟨[], [], []⟩
        ["/src/a.txt", "/src/b.txt"] []).outcome =
      .error ⟨"Invalid output from builder", "stage", "/src/a.txt",
        "Builder returned a job object"⟩ ∧
    (badShapeFn.run "/src/b.txt" "bb").result =
      .ok (some (.bufferContents "bb!")) ∧
    (Builder.execute "stage" "/src" badShapeFn
        [("/src/a.txt", "aa"), ("/src/b.txt", "bb")] ⟨[], [], []⟩
        ["/src/a.txt", "/src/b.txt"] []).raw = [] := by
  refine ⟨by decide, by decide, by decide⟩

-- ### C3: error isolation within a stage batch

theorem recordOutputs_mono (base buildPath : String)
    (entries : List (String × Bytes)) (acc : PathPairSet × List Change) :
    (∀ x, x ∈ acc.1 → x ∈ (recordOutputs base buildPath entries acc).1) ∧
    (∀ ch, ch ∈ acc.2 → ch ∈ (recordOutputs base buildPath entries acc).2) := by
  induction entries generalizing acc with
  | nil => exact ⟨fun x h => h, fun ch h => h⟩
  | cons e rest ih =>
    unfold recordOutputs at ih ⊢
    rw [List.foldl_cons]
    constructor
    · intro x hx
      exact (ih _).1 x ((PathPairSet.mem_add _ _ _ x).mpr (Or.inl hx))
    · intro ch hch
      exact (ih _).2 ch (List.mem_append.mpr (Or.inl hch))

theorem recordOutputs_inserts (base buildPath : String)
    (entries : List (String × Bytes)) (acc : PathPairSet × List Change)
    (f : String) (c : Bytes) (hmem : (f, c) ∈ entries) :
    (buildPath, resolvePath base f) ∈ (recordOutputs base buildPath entries acc).1 ∧
    (⟨resolvePath base f, some c⟩ : Change) ∈
      (recordOutputs base buildPath entries acc).2 := by
  induction entries generalizing acc with
  | nil => cases hmem
  | cons e rest ih =>
    unfold recordOutputs at ih ⊢
    rw [List.foldl_cons]
    rcases List.mem_cons.mp hmem with h1 | h1
    · subst h1
      constructor
      · exact (recordOutputs_mono base buildPath rest _).1 _
          ((PathPairSet.mem_add _ _ _ _).mpr (Or.inr rfl))
      · exact (recordOutputs_mono base buildPath rest _).2 _
          (List.mem_append.mpr (Or.inr (List.mem_singleton.mpr rfl)))
    · exact ih _ h1

theorem recordOutputs_left (base buildPath : String)
    (entries : List (String × Bytes)) (acc : PathPairSet × List Change)
    (x : String × String)
    (hx : x ∈ (recordOutputs base buildPath entries acc).1) :
    x ∈ acc.1 ∨ x.1 = buildPath := by
  induction entries generalizing acc with
  | nil => exact Or.inl hx
  | cons e rest ih =>
    unfold recordOutputs at ih hx
    rw [List.foldl_cons] at hx
    rcases ih _ hx with h1 | h1
    · rcases (PathPairSet.mem_add _ _ _ x).mp h1 with h2 | h2
      · exact Or.inl h2
      · right; rw [h2]
    · exact Or.inr h1

theorem recordOutputs_contents (base buildPath : String)
    (entries : List (String × Bytes)) (acc : PathPairSet × List Change)
    (ch : Change)
    (hch : ch ∈ (recordOutputs base buildPath entries acc).2) :
    ch ∈ acc.2 ∨ ch.contents.isSome = true := by
  induction entries generalizing acc with
  | nil => exact Or.inl hch
  | cons e rest ih =>
    unfold recordOutputs at ih hch
    rw [List.foldl_cons] at hch
    rcases ih _ hch with h1 | h1
    · rcases List.mem_append.mp h1 with h2 | h2
      · exact Or.inl h2
      · right
        rw [List.mem_singleton.mp h2]
        rfl
    · exact Or.inr h1

theorem recordOutputs_file_owned (base buildPath : String)
    (entries : List (String × Bytes)) (acc : PathPairSet × List Change)
    (ch : Change)
    (hch : ch ∈ (recordOutputs base buildPath entries acc).2) :
    ch ∈ acc.2 ∨
      ∃ l, (l, ch.file) ∈ (recordOutputs base buildPath entries acc).1 := by
  induction entries generalizing acc with
  | nil => exact Or.inl hch
  | cons e rest ih =>
    unfold recordOutputs at ih hch ⊢
    rw [List.foldl_cons] at hch ⊢
    rcases ih _ hch with h1 | h1
    · rcases List.mem_append.mp h1 with h2 | h2
      · exact Or.inl h2
      · right
        refine ⟨buildPath, ?_⟩
        rw [List.mem_singleton.mp h2]
        exact (recordOutputs_mono base buildPath rest _).1 _
          ((PathPairSet.mem_add _ _ _ _).mpr (Or.inr rfl))
    · exact Or.inr h1

theorem processResults_mono (name base : String)
    (results : List (String × Option BuilderResult)) :
    ∀ (paths : List String) (outs : PathPairSet) (fins : List Change)
      (final : PathPairSet × List Change),
      processResults name base results paths outs fins = .ok final →
      (∀ x, x ∈ outs → x ∈ final.1) ∧ (∀ ch, ch ∈ fins → ch ∈ final.2) := by
  intro paths
  induction paths with
  | nil =>
      intro outs fins final h
      injection h with h1
      rw [← h1]
      exact ⟨fun x hx => hx, fun ch hch => hch⟩
  | cons q rest ih =>
      intro outs fins final h
      unfold processResults at h
      cases hlq : lookupResult results q with
      | none =>
          rw [hlq] at h
          exact ih outs fins final h
      | some v =>
          cases v with
          | none =>
              rw [hlq] at h
              exact ih outs fins final h
          | some rq =>
              rw [hlq] at h
              dsimp only at h
              cases hn : normaliseResult q rq with
              | error m => rw [hn] at h; cases h
              | ok entries =>
                  rw [hn] at h
                  dsimp only at h
                  have step := ih _ _ final h
                  constructor
                  · intro x hx
                    exact step.1 x
                      ((recordOutputs_mono base q entries (outs, fins)).1 x hx)
                  · intro ch hch
                    exact step.2 ch
                      ((recordOutputs_mono base q entries (outs, fins)).2 ch hch)

theorem processResults_good_path (name base : String)
    (results : List (String × Option BuilderResult)) :
    ∀ (paths : List String) (outs : PathPairSet) (fins : List Change)
      (final : PathPairSet × List Change)
      (p : String) (r : BuilderResult) (entries : List (String × Bytes)),
      processResults name base results paths outs fins = .ok final →
      p ∈ paths →
      lookupResult results p = some (some r) →
      normaliseResult p r = .ok entries →
      ∀ f c, (f, c) ∈ entries →
        (p, resolvePath base f) ∈ final.1 ∧
        (⟨resolvePath base f, some c⟩ : Change) ∈ final.2 := by
  intro paths
  induction paths with
  | nil => intro _ _ _ _ _ _ _ hmem; cases hmem
  | cons q rest ih =>
      intro outs fins final p r entries h hmem hlook hnorm f c hfc
      unfold processResults at h
      by_cases hqp : q = p
      · subst hqp
        rw [hlook] at h
        dsimp only at h
        rw [hnorm] at h
        dsimp only at h
        have hins := recordOutputs_inserts base q entries (outs, fins) f c hfc
        have step := processResults_mono name base results rest _ _ final h
        exact ⟨step.1 _ hins.1, step.2 _ hins.2⟩
      · have hp : p ∈ rest := by
          rcases List.mem_cons.mp hmem with h1 | h1
          · exact absurd h1.symm hqp
          · exact h1
        cases hlq : lookupResult results q with
        | none =>
            rw [hlq] at h
            exact ih _ _ final p r entries h hp hlook hnorm f c hfc
        | some v =>
            cases v with
            | none =>
                rw [hlq] at h
                exact ih _ _ final p r entries h hp hlook hnorm f c hfc
            | some rq =>
                rw [hlq] at h
                dsimp only at h
                cases hn : normaliseResult q rq with
                | error m => rw [hn] at h; cases h
                | ok entriesq =>
                    rw [hn] at h
                    dsimp only at h
                    exact ih _ _ final p r entries h hp hlook hnorm f c hfc

theorem processResults_left_owner (name base : String)
    (results : List (String × Option BuilderResult)) :
    ∀ (paths : List String) (outs : PathPairSet) (fins : List Change)
      (final : PathPairSet × List Change),
      processResults name base results paths outs fins = .ok final →
      ∀ x, x ∈ final.1 →
        x ∈ outs ∨ ∃ rr, lookupResult results x.1 = some (some rr) := by
  intro paths
  induction paths with
  | nil =>
      intro outs fins final h x hx
      injection h with h1
      rw [← h1] at hx
      exact Or.inl hx
  | cons q rest ih =>
      intro outs fins final h x hx
      unfold processResults at h
      cases hlq : lookupResult results q with
      | none =>
          rw [hlq] at h
          exact ih outs fins final h x hx
      | some v =>
          cases v with
          | none =>
              rw [hlq] at h
              exact ih outs fins final h x hx
          | some rq =>
              rw [hlq] at h
              dsimp only at h
              cases hn : normaliseResult q rq with
              | error m => rw [hn] at h; cases h
              | ok entries =>
                  rw [hn] at h
                  dsimp only at h
                  rcases ih _ _ final h x hx with h1 | h1
                  · rcases recordOutputs_left base q entries (outs, fins) x h1
                      with h2 | h2
                    · exact Or.inl h2
                    · exact Or.inr ⟨rq, h2 ▸ hlq⟩
                  · exact Or.inr h1

theorem processResults_contents_isSome (name base : String)
    (results : List (String × Option BuilderResult)) :
    ∀ (paths : List String) (outs : PathPairSet) (fins : List Change)
      (final : PathPairSet × List Change),
      processResults name base results paths outs fins = .ok final →
      ∀ ch, ch ∈ final.2 → ch ∈ fins ∨ ch.contents.isSome = true := by
  intro paths
  induction paths with
  | nil =>
      intro outs fins final h ch hch
      injection h with h1
      rw [← h1] at hch
      exact Or.inl hch
  | cons q rest ih =>
      intro outs fins final h ch hch
      unfold processResults at h
      cases hlq : lookupResult results q with
      | none =>
          rw [hlq] at h
          exact ih outs fins final h ch hch
      | some v =>
          cases v with
          | none =>
              rw [hlq] at h
              exact ih outs fins final h ch hch
          | some rq =>
              rw [hlq] at h
              dsimp only at h
              cases hn : normaliseResult q rq with
              | error m => rw [hn] at h; cases h
              | ok entries =>
                  rw [hn] at h
                  dsimp only at h
                  rcases ih _ _ final h ch hch with h1 | h1
                  · exact recordOutputs_contents base q entries (outs, fins) ch h1
                  · exact Or.inr h1

theorem processResults_file_owned (name base : String)
    (results : List (String × Option BuilderResult)) :
    ∀ (paths : List String) (outs : PathPairSet) (fins : List Change)
      (final : PathPairSet × List Change),
      processResults name base results paths outs fins = .ok final →
      ∀ ch, ch ∈ final.2 →
        ch ∈ fins ∨ ∃ l, (l, ch.file) ∈ final.1 := by
  intro paths
  induction paths with
  | nil =>
      intro outs fins final h ch hch
      injection h with h1
      rw [← h1] at hch
      exact Or.inl hch
  | cons q rest ih =>
      intro outs fins final h ch hch
      unfold processResults at h
      cases hlq : lookupResult results q with
      | none =>
          rw [hlq] at h
          exact ih outs fins final h ch hch
      | some v =>
          cases v with
          | none =>
              rw [hlq] at h
              exact ih outs fins final h ch hch
          | some rq =>
              rw [hlq] at h
              dsimp only at h
              cases hn : normaliseResult q rq with
              | error m => rw [hn] at h; cases h
              | ok entries =>
                  rw [hn] at h
                  dsimp only at h
                  rcases ih _ _ final h ch hch with h1 | h1
                  · rcases recordOutputs_file_owned base q entries (outs, fins)
                      ch h1 with h2 | h2
                    · exact Or.inl h2
                    · rcases h2 with ⟨l, hl⟩
                      exact Or.inr ⟨l,
                        (processResults_mono name base results rest _ _ final h).1
                          _ hl⟩
                  · exact Or.inr h1

theorem mem_carryOver (buildPaths : List String) (old init : PathPairSet)
    (x : String × String) :
    x ∈ carryOver buildPaths old init ↔
      x ∈ init ∨ (x ∈ old ∧ x.1 ∉ buildPaths) := by
  unfold carryOver
  induction old generalizing init with
  | nil => simp
  | cons q rest ih =>
      rw [List.foldl_cons]
      by_cases hq : q.1 ∈ buildPaths
      · rw [if_pos hq, ih]
        constructor
        · rintro (h1 | ⟨h1, h2⟩)
          · exact Or.inl h1
          · exact Or.inr ⟨List.mem_cons_of_mem _ h1, h2⟩
        · rintro (h1 | ⟨h1, h2⟩)
          · exact Or.inl h1
          · rcases List.mem_cons.mp h1 with h3 | h3
            · exact absurd (h3 ▸ hq) h2
            · exact Or.inr ⟨h3, h2⟩
      · rw [if_neg hq, ih]
        constructor
        · rintro (h1 | ⟨h1, h2⟩)
          · rcases (PathPairSet.mem_add _ _ _ x).mp h1 with h3 | h3
            · exact Or.inl h3
            · refine Or.inr ⟨?_, ?_⟩
              · rw [h3]; exact List.mem_cons_self _ _
              · rw [h3]; exact hq
          · exact Or.inr ⟨List.mem_cons_of_mem _ h1, h2⟩
        · rintro (h1 | ⟨h1, h2⟩)
          · exact Or.inl ((PathPairSet.mem_add _ _ _ x).mpr (Or.inl h1))
          · rcases List.mem_cons.mp h1 with h3 | h3
            · exact Or.inl ((PathPairSet.mem_add _ _ _ x).mpr
                (Or.inr (by rw [h3])))
            · exact Or.inr ⟨h3, h2⟩

theorem runInvocations_error_mem (name base : String) (fn : BuildFn)
    (inbox : Store) (p : String) (c : Bytes) (msg : String)
    (hread : inbox.read p = some c)
    (hrun : (fn.run p c).result = .error msg) :
    ∀ (paths : List String) (imps0 : PathPairSet), p ∈ paths →
      (⟨"Error from builder", name, p, msg⟩ : BuilderError) ∈
        (runInvocations name base fn inbox paths imps0).2.2 := by
  intro paths
  induction paths with
  | nil => intro _ hmem; cases hmem
  | cons q rest ih =>
      intro imps0 hmem
      by_cases hqp : q = p
      · subst hqp
        unfold runInvocations
        rw [hread]
        dsimp only
        rw [hrun]
        exact List.mem_cons_self _ _
      · have hp : p ∈ rest := by
          rcases List.mem_cons.mp hmem with h1 | h1
          · exact absurd h1.symm hqp
          · exact h1
        unfold runInvocations
        cases hq : inbox.read q with
        | none => exact ih _ hp
        | some cq =>
            dsimp only
            cases hr : (fn.run q cq).result with
            | error m => exact List.mem_cons_of_mem _ (ih _ hp)
            | ok r => exact ih _ hp

theorem execute_errors_eq (name base : String) (fn : BuildFn) (inbox : Store)
    (st : BuilderState) (changedInternal changedExternal : List String) :
    (Builder.execute name base fn inbox st changedInternal
        changedExternal).errors =
      (runInvocations name base fn inbox
        (computeBuildPaths st.importations changedInternal
          (changedInternal ++ changedExternal)) []).2.2 := by
  unfold Builder.execute
  dsimp only
  split <;> rfl

theorem execute_ok_case (name base : String) (fn : BuildFn) (inbox : Store)
    (st : BuilderState) (changedInternal changedExternal : List String)
    (pr : PathPairSet × List Change)
    (h : processResults name base
        (runInvocations name base fn inbox
          (computeBuildPaths st.importations changedInternal
            (changedInternal ++ changedExternal)) []).2.1
        (computeBuildPaths st.importations changedInternal
          (changedInternal ++ changedExternal)) [] [] = .ok pr) :
    Builder.execute name base fn inbox st changedInternal changedExternal =
      ⟨⟨carryOver
            (computeBuildPaths st.importations changedInternal
              (changedInternal ++ changedExternal)) st.importations
            (runInvocations name base fn inbox
              (computeBuildPaths st.importations changedInternal
                (changedInternal ++ changedExternal)) []).1,
          carryOver
            (computeBuildPaths st.importations changedInternal
              (changedInternal ++ changedExternal)) st.outputtings pr.1,
          (st.outbox.writeAll (pr.2 ++
            deletionChanges st.outputtings.getAllRights
              (carryOver
                (computeBuildPaths st.importations changedInternal
                  (changedInternal ++ changedExternal)) st.outputtings
                pr.1).getAllRights)).1⟩,
        (runInvocations name base fn inbox
          (computeBuildPaths st.importations changedInternal
            (changedInternal ++ changedExternal)) []).2.2,
        computeBuildPaths st.importations changedInternal
          (changedInternal ++ changedExternal),
        pr.2 ++ deletionChanges st.outputtings.getAllRights
          (carryOver
            (computeBuildPaths st.importations changedInternal
              (changedInternal ++ changedExternal)) st.outputtings
            pr.1).getAllRights,
        .ok (st.outbox.writeAll (pr.2 ++
          deletionChanges st.outputtings.getAllRights
            (carryOver
              (computeBuildPaths st.importations changedInternal
                (changedInternal ++ changedExternal)) st.outputtings
              pr.1).getAllRights)).2⟩ := by
  unfold Builder.execute
  dsimp only
  rw [h]

/--
C3: when the builder-function invocation for one build path throws, the
error is caught, wrapped with the stage name, that path and the original
cause, and emitted as a stage error; the throwing path contributes no
output edges; and - provided the batch completes (no other path violates
the return-shape contract) - every other build path that built
successfully still has each of its outputs recorded as an output edge
and present in the batch's result list (before the outbox no-op
filter).
-/
theorem execute_error_isolation (name base : String) (fn : BuildFn)
    (inbox : Store) (st : BuilderState)
    (changedInternal changedExternal : List String)
    (A : String) (cA : Bytes) (msg : String) (chs : List Change)
    (hAmem : A ∈ (Builder.execute name base fn inbox st
        changedInternal changedExternal).attempted)
    (hAread : inbox.read A = some cA)
    (hAthrow : (fn.run A cA).result = .error msg)
    (hok : (Builder.execute name base fn inbox st
        changedInternal changedExternal).outcome = .ok chs) :
    ((⟨"Error from builder", name, A, msg⟩ : BuilderError) ∈
        (Builder.execute name base fn inbox st
          changedInternal changedExternal).errors) ∧
    (∀ x, (A, x) ∉ (Builder.execute name base fn inbox st
        changedInternal changedExternal).state.outputtings) ∧
    (∀ B cB rB entriesB, B ∈ (Builder.execute name base fn inbox st
          changedInternal changedExternal).attempted →
      inbox.read B = some cB →
      (fn.run B cB).result = .ok (some rB) →
      normaliseResult B rB = .ok entriesB →
      ∀ f c, (f, c) ∈ entriesB →
        (B, resolvePath base f) ∈ (Builder.execute name base fn inbox st
          changedInternal changedExternal).state.outputtings ∧
        (⟨resolvePath base f, some c⟩ : Change) ∈
          (Builder.execute name base fn inbox st
            changedInternal changedExternal).raw) := by
  rw [execute_attempted] at hAmem
  cases hpr : processResults name base
      (runInvocations name base fn inbox
        (computeBuildPaths st.importations changedInternal
          (changedInternal ++ changedExternal)) []).2.1
      (computeBuildPaths st.importations changedInternal
        (changedInternal ++ changedExternal)) [] [] with
  | error e =>
      rw [execute_error_case name base fn inbox st changedInternal
        changedExternal e hpr] at hok
      cases hok
  | ok pr =>
      have hX := execute_ok_case name base fn inbox st changedInternal
        changedExternal pr hpr
      have hAlook := lookupResult_runInvocations name base fn inbox A cA hAread
        (computeBuildPaths st.importations changedInternal
          (changedInternal ++ changedExternal)) [] hAmem
      rw [hAthrow] at hAlook
      refine ⟨?_, ?_, ?_⟩
      · rw [execute_errors_eq]
        exact runInvocations_error_mem name base fn inbox A cA msg hAread
          hAthrow _ [] hAmem
      · intro x hx
        rw [hX] at hx
        dsimp only at hx
        rcases (mem_carryOver _ _ _ _).mp hx with h1 | ⟨_, h2⟩
        · rcases processResults_left_owner name base _ _ _ _ pr hpr
            (A, x) h1 with h2 | ⟨rr, hrr⟩
          · cases h2
          · rw [hAlook] at hrr
            simp at hrr
        · exact h2 hAmem
      · intro B cB rB entriesB hBmem hBread hBrun hBnorm f c hfc
        rw [execute_attempted] at hBmem
        have hBlook := lookupResult_runInvocations name base fn inbox B cB
          hBread
          (computeBuildPaths st.importations changedInternal
            (changedInternal ++ changedExternal)) [] hBmem
        rw [hBrun] at hBlook
        have hgood := processResults_good_path name base _ _ _ _ pr B rB
          entriesB hpr hBmem hBlook hBnorm f c hfc
        rw [hX]
        dsimp only
        constructor
        · exact (mem_carryOver _ _ _ _).mpr (Or.inl hgood.1)
        · exact List.mem_append.mpr (Or.inl hgood.2)

/-- Builder function for the C3 scenario: `/src/a.txt` throws, every
other path appends a bang to its contents. -/
def throwingFn : BuildFn :=
  ⟨fun p c =>
    if p = "/src/a.txt" then ⟨[], .error "boom"⟩
    else ⟨[], .ok (some (.bufferContents (c ++ "!")))⟩⟩

/-- Witness for C3 at a concrete two-path stage batch where
`/src/a.txt` throws and `/src/b.txt` succeeds. -/
theorem execute_error_isolation_witness :
    ((⟨"Error from builder", "stage", "/src/a.txt", "boom"⟩ : BuilderError) ∈
        (Builder.execute "stage" "/src" throwingFn
          [("/src/a.txt", "aa"), ("/src/b.txt", "bb")] ⟨[], [], []⟩
          ["/src/a.txt", "/src/b.txt"] []).errors) ∧
    (("/src/a.txt", "/src/a.txt") ∉
        (Builder.execute "stage" "/src" throwingFn
          [("/src/a.txt", "aa"), ("/src/b.txt", "bb")] ⟨[], [], []⟩
          ["/src/a.txt", "/src/b.txt"] []).state.outputtings) ∧
    (("/src/b.txt", "/src/b.txt") ∈
        (Builder.execute "stage" "/src" throwingFn
          [("/src/a.txt", "aa"), ("/src/b.txt", "bb")] ⟨[], [], []⟩
          ["/src/a.txt", "/src/b.txt"] []).state.outputtings) ∧
    ((⟨"/src/b.txt", some "bb!"⟩ : Change) ∈
        (Builder.execute "stage" "/src" throwingFn
          [("/src/a.txt", "aa"), ("/src/b.txt", "bb")] ⟨[], [], []⟩
          ["/src/a.txt", "/src/b.txt"] []).raw) := by
  have h := execute_error_isolation "stage" "/src" throwingFn
    [("/src/a.txt", "aa"), ("/src/b.txt", "bb")] ⟨[], [], []⟩
    ["/src/a.txt", "/src/b.txt"] [] "/src/a.txt" "aa" "boom"
    [⟨"/src/b.txt", some "bb!"⟩] (by decide) (by decide) (by decide) (by decide)
  have hb := h.2.2 "/src/b.txt" "bb" (.bufferContents "bb!")
    [("/src/b.txt", "bb!")] (by decide) (by decide) (by decide) (by decide)
    "/src/b.txt" "bb!" (by decide)
  have hb1 : ("/src/b.txt", resolvePath "/src" "/src/b.txt") =
      ("/src/b.txt", "/src/b.txt") := by decide
  have hb2 : (⟨resolvePath "/src" "/src/b.txt", some "bb!"⟩ : Change) =
      ⟨"/src/b.txt", some "bb!"⟩ := by decide
  exact ⟨h.1, h.2.1 "/src/a.txt", hb1 ▸ hb.1, hb2 ▸ hb.2⟩

-- ### C2: deletion propagation

theorem Store.read_cons (e : String × Bytes) (t : Store) (q : String) :
    Store.read (e :: t) q = if e.1 = q then some e.2 else Store.read t q := by
  unfold Store.read
  by_cases h : e.1 = q
  · simp [List.find?, h]
  · simp [List.find?, h]

theorem Store.read_append_case (t1 t2 : Store) (q : String) :
    Store.read (t1 ++ t2) q =
      match Store.read t1 q with
      | some v => some v
      | none => Store.read t2 q := by
  induction t1 with
  | nil => rfl
  | cons e t ih =>
      rw [List.cons_append, Store.read_cons, Store.read_cons]
      by_cases h : e.1 = q
      · rw [if_pos h, if_pos h]
      · rw [if_neg h, if_neg h, ih]

theorem Store.read_filter_self (s : Store) (p : String) :
    Store.read (s.filter (fun e => decide (e.1 ≠ p))) p = none := by
  induction s with
  | nil => rfl
  | cons e t ih =>
      rw [List.filter_cons]
      by_cases hep : e.1 = p
      · have hd : decide (e.1 ≠ p) = false := by simp [hep]
        rw [hd, if_neg Bool.false_ne_true]
        exact ih
      · have hd : decide (e.1 ≠ p) = true := by simp [hep]
        rw [hd, if_pos rfl, Store.read_cons, if_neg hep]
        exact ih

theorem Store.read_filter_ne (s : Store) (p q : String) (hqp : q ≠ p) :
    Store.read (s.filter (fun e => decide (e.1 ≠ p))) q = s.read q := by
  induction s with
  | nil => rfl
  | cons e t ih =>
      rw [List.filter_cons]
      by_cases hep : e.1 = p
      · have hd : decide (e.1 ≠ p) = false := by simp [hep]
        have heq : ¬ (e.1 = q) := by
          rw [hep]
          exact fun h => hqp h.symm
        rw [hd, if_neg Bool.false_ne_true, Store.read_cons, if_neg heq]
        exact ih
      · have hd : decide (e.1 ≠ p) = true := by simp [hep]
        rw [hd, if_pos rfl, Store.read_cons, Store.read_cons]
        by_cases heq : e.1 = q
        · rw [if_pos heq, if_pos heq]
        · rw [if_neg heq, if_neg heq, ih]

theorem Store.read_set_self (s : Store) (p : String) (c : Option Bytes) :
    (s.set p c).read p = c := by
  cases c with
  | none =>
      unfold Store.set
      exact Store.read_filter_self s p
  | some b =>
      unfold Store.set
      rw [Store.read_append_case, Store.read_filter_self]
      rw [Store.read_cons]
      simp

theorem Store.read_set_ne (s : Store) (p : String) (c : Option Bytes)
    (q : String) (hqp : q ≠ p) : (s.set p c).read q = s.read q := by
  cases c with
  | none => exact Store.read_filter_ne s p q hqp
  | some b =>
      unfold Store.set
      rw [Store.read_append_case]
      cases hf : Store.read (s.filter (fun e => decide (e.1 ≠ p))) q with
      | some v =>
          rw [Store.read_filter_ne s p q hqp] at hf
          rw [hf]
      | none =>
          rw [Store.read_filter_ne s p q hqp] at hf
          rw [hf, Store.read_cons]
          have : ¬ ((p : String) = q) := fun h => hqp h.symm
          rw [if_neg this]
          rfl

theorem Store.write_read_eq (s : Store) (p : String) (c : Option Bytes)
    (h : s.read p = c) : s.write p c = (s, none) := by
  unfold Store.write
  rw [if_pos h]

theorem Store.write_read_ne (s : Store) (p : String) (c : Option Bytes)
    (h : s.read p ≠ c) : s.write p c = (s.set p c, some ⟨p, c⟩) := by
  unfold Store.write
  rw [if_neg h]

theorem Store.writeAll_acc (l : List Change) (s : Store) (cs : List Change) :
    l.foldl Store.writeStep (s, cs) =
      ((s.writeAll l).1, cs ++ (s.writeAll l).2) := by
  induction l generalizing s cs with
  | nil => simp [Store.writeAll]
  | cons e t ih =>
      unfold Store.writeAll at ih ⊢
      rw [List.foldl_cons, List.foldl_cons]
      cases hw : s.write e.file e.contents with
      | mk s1 oc =>
          cases oc with
          | none =>
              have h1 : Store.writeStep (s, cs) e = (s1, cs) := by
                unfold Store.writeStep
                rw [hw]
              have h2 : Store.writeStep (s, []) e = (s1, []) := by
                unfold Store.writeStep
                rw [hw]
              rw [h1, h2, ih s1 cs, ih s1 []]
          | some c =>
              have h1 : Store.writeStep (s, cs) e = (s1, cs ++ [c]) := by
                unfold Store.writeStep
                rw [hw]
              have h2 : Store.writeStep (s, []) e = (s1, [] ++ [c]) := by
                unfold Store.writeStep
                rw [hw]
              rw [h1, h2, ih s1 (cs ++ [c]), ih s1 ([] ++ [c])]
              simp

theorem Store.writeAll_nil (s : Store) : s.writeAll [] = (s, []) := rfl

theorem Store.writeAll_cons (s : Store) (e : Change) (t : List Change) :
    s.writeAll (e :: t) =
      (if s.read e.file = e.contents then s.writeAll t
       else (((s.set e.file e.contents).writeAll t).1,
         ⟨e.file, e.contents⟩ ::
           ((s.set e.file e.contents).writeAll t).2)) := by
  unfold Store.writeAll
  rw [List.foldl_cons]
  by_cases h : s.read e.file = e.contents
  · have h1 : Store.writeStep (s, []) e = (s, []) := by
      unfold Store.writeStep
      rw [Store.write_read_eq s e.file e.contents h]
    rw [h1, if_pos h]
  · have h1 : Store.writeStep (s, []) e =
        (s.set e.file e.contents, [⟨e.file, e.contents⟩]) := by
      unfold Store.writeStep
      rw [Store.write_read_ne s e.file e.contents h]
      rfl
    rw [h1, if_neg h,
      Store.writeAll_acc t (s.set e.file e.contents) [⟨e.file, e.contents⟩]]
    rfl

theorem Store.writeAll_append (s : Store) (l1 l2 : List Change) :
    s.writeAll (l1 ++ l2) =
      (((s.writeAll l1).1.writeAll l2).1,
        (s.writeAll l1).2 ++ ((s.writeAll l1).1.writeAll l2).2) := by
  unfold Store.writeAll
  rw [List.foldl_append]
  have : List.foldl Store.writeStep (s, []) l1 =
      ((Store.writeAll s l1).1, [] ++ (Store.writeAll s l1).2) :=
    Store.writeAll_acc l1 s []
  rw [List.nil_append] at this
  rw [this]
  have h2 := Store.writeAll_acc l2 (Store.writeAll s l1).1 (Store.writeAll s l1).2
  rw [h2]
  rfl

theorem Store.writeAll_read_not_mem (l : List Change) (s : Store) (p : String)
    (h : ∀ e ∈ l, e.file ≠ p) : (s.writeAll l).1.read p = s.read p := by
  induction l generalizing s with
  | nil => rfl
  | cons e t ih =>
      rw [Store.writeAll_cons]
      by_cases hw : s.read e.file = e.contents
      · rw [if_pos hw]
        exact ih s (fun x hx => h x (List.mem_cons_of_mem _ hx))
      · rw [if_neg hw]
        dsimp only
        rw [ih _ (fun x hx => h x (List.mem_cons_of_mem _ hx))]
        exact Store.read_set_ne s e.file e.contents p
          (fun hh => h e (List.mem_cons_self _ _) hh.symm)

theorem Store.writeAll_changes_sub (l : List Change) (s : Store) (ch : Change)
    (h : ch ∈ (s.writeAll l).2) : ch ∈ l := by
  induction l generalizing s with
  | nil => cases h
  | cons e t ih =>
      rw [Store.writeAll_cons] at h
      by_cases hw : s.read e.file = e.contents
      · rw [if_pos hw] at h
        exact List.mem_cons_of_mem _ (ih s h)
      · rw [if_neg hw] at h
        dsimp only at h
        rcases List.mem_cons.mp h with h1 | h1
        · rw [h1]
          exact List.mem_cons_self _ _
        · exact List.mem_cons_of_mem _ (ih _ h1)

theorem Store.writeAll_all_real (l : List Change) (s : Store)
    (hnone : ∀ e ∈ l, e.contents = none)
    (hnodup : (l.map (fun e => e.file)).Nodup)
    (hlive : ∀ e ∈ l, (s.read e.file).isSome = true) :
    (s.writeAll l).2 = l := by
  induction l generalizing s with
  | nil => rfl
  | cons e t ih =>
      rw [Store.writeAll_cons]
      rw [List.map_cons] at hnodup
      have hnc := List.nodup_cons.mp hnodup
      have hcne : s.read e.file ≠ e.contents := by
        rw [hnone e (List.mem_cons_self _ _)]
        intro hh
        have h2 := hlive e (List.mem_cons_self _ _)
        rw [hh] at h2
        simp at h2
      rw [if_neg hcne]
      dsimp only
      have htail : ((s.set e.file e.contents).writeAll t).2 = t := by
        refine ih _ (fun x hx => hnone x (List.mem_cons_of_mem _ hx)) hnc.2 ?_
        intro x hx
        have hne : x.file ≠ e.file := by
          intro hh
          exact hnc.1 (hh ▸ List.mem_map_of_mem (fun y => y.file) hx)
        rw [Store.read_set_ne s e.file e.contents x.file hne]
        exact hlive x (List.mem_cons_of_mem _ hx)
      rw [htail]

theorem deletionChanges_map_file (oldR newR : List String) :
    (deletionChanges oldR newR).map (fun e => e.file) =
      oldR.filter (fun p => decide (p ∉ newR)) := by
  unfold deletionChanges
  rw [List.map_map]
  exact List.map_id _

theorem mem_deletionChanges (oldR newR : List String) (e : Change) :
    e ∈ deletionChanges oldR newR ↔
      ∃ q, q ∈ oldR ∧ q ∉ newR ∧ e = ⟨q, none⟩ := by
  unfold deletionChanges
  rw [List.mem_map]
  constructor
  · rintro ⟨q, hq, rfl⟩
    have := List.mem_filter.mp hq
    exact ⟨q, this.1, by simpa using this.2, rfl⟩
  · rintro ⟨q, h1, h2, rfl⟩
    exact ⟨q, List.mem_filter.mpr ⟨h1, by simpa using h2⟩, rfl⟩


theorem deletion_diff_core (outbox : Store) (results : List Change)
    (oldR newR : List String)
    (hRnodup : oldR.Nodup)
    (hres_some : ∀ ch ∈ results, ch.contents.isSome = true)
    (hres_file : ∀ ch ∈ results, ch.file ∈ newR)
    (hlive : ∀ q ∈ oldR, (outbox.read q).isSome = true) :
    (∀ p, p ∈ oldR → p ∉ newR →
      ((outbox.writeAll
        (results ++ deletionChanges oldR newR)).2).count ⟨p, none⟩ = 1) ∧
    (∀ p, p ∈ newR →
      (⟨p, none⟩ : Change) ∉
        (outbox.writeAll (results ++ deletionChanges oldR newR)).2) := by
  rw [Store.writeAll_append]
  have hD_none : ∀ e ∈ deletionChanges oldR newR, e.contents = none := by
    intro e he
    rcases (mem_deletionChanges oldR newR e).mp he with ⟨q, _, _, rfl⟩
    rfl
  have hD_not_new : ∀ e ∈ deletionChanges oldR newR, e.file ∉ newR := by
    intro e he
    rcases (mem_deletionChanges oldR newR e).mp he with ⟨q, _, h2, rfl⟩
    exact h2
  have hD_old : ∀ e ∈ deletionChanges oldR newR, e.file ∈ oldR := by
    intro e he
    rcases (mem_deletionChanges oldR newR e).mp he with ⟨q, h1, _, rfl⟩
    exact h1
  have hD_nodup : ((deletionChanges oldR newR).map (fun e => e.file)).Nodup := by
    rw [deletionChanges_map_file]
    exact hRnodup.filter _
  have hs1_read : ∀ e ∈ deletionChanges oldR newR,
      (((outbox.writeAll results).1).read e.file).isSome = true := by
    intro e he
    rw [Store.writeAll_read_not_mem results outbox e.file
      (fun x hx hEq => hD_not_new e he (hEq ▸ hres_file x hx))]
    exact hlive e.file (hD_old e he)
  have hc2 : (((outbox.writeAll results).1).writeAll
      (deletionChanges oldR newR)).2 = deletionChanges oldR newR :=
    Store.writeAll_all_real _ _ hD_none hD_nodup hs1_read
  have hc1_not : ∀ p, (⟨p, none⟩ : Change) ∉ (outbox.writeAll results).2 := by
    intro p hmem
    have hsub := Store.writeAll_changes_sub results outbox _ hmem
    have := hres_some _ hsub
    simp at this
  constructor
  · intro p hpo hpn
    rw [List.count_append, hc2]
    have hcount1 : ((outbox.writeAll results).2).count (⟨p, none⟩ : Change) = 0 :=
      List.count_eq_zero.mpr (hc1_not p)
    have hmemD : (⟨p, none⟩ : Change) ∈ deletionChanges oldR newR :=
      (mem_deletionChanges oldR newR _).mpr ⟨p, hpo, hpn, rfl⟩
    have hDnodup2 : (deletionChanges oldR newR).Nodup :=
      List.Nodup.of_map _ hD_nodup
    rw [hcount1, List.count_eq_one_of_mem hDnodup2 hmemD]
  · intro p hpn hmem
    rw [hc2] at hmem
    rcases List.mem_append.mp hmem with h1 | h1
    · exact hc1_not p h1
    · exact hD_not_new _ h1 hpn

/--
C2: when a Stage `execute` call completes (no contract violation), every
path that was an output-edge right value before the batch but is not one
after the carry-over merge appears exactly once in the batch's result
list as `{path, contents: null}`, and no path still among the new
output-edge right values appears as a deletion.  (The hypothesis that
every old output path is present in the outbox is the invariant
`execute` itself maintains: every recorded output edge is also written
to the outbox.)
-/
theorem execute_deletion_diff (name base : String) (fn : BuildFn)
    (inbox : Store) (st : BuilderState)
    (changedInternal changedExternal : List String) (chs : List Change)
    (hok : (Builder.execute name base fn inbox st
        changedInternal changedExternal).outcome = .ok chs)
    (hlive : ∀ q, q ∈ st.outputtings.getAllRights →
      (st.outbox.read q).isSome = true) :
    (∀ p, p ∈ st.outputtings.getAllRights →
      p ∉ (Builder.execute name base fn inbox st
        changedInternal changedExternal).state.outputtings.getAllRights →
      chs.count ⟨p, none⟩ = 1) ∧
    (∀ p, p ∈ (Builder.execute name base fn inbox st
        changedInternal changedExternal).state.outputtings.getAllRights →
      (⟨p, none⟩ : Change) ∉ chs) := by
  cases hpr : processResults name base
      (runInvocations name base fn inbox
        (computeBuildPaths st.importations changedInternal
          (changedInternal ++ changedExternal)) []).2.1
      (computeBuildPaths st.importations changedInternal
        (changedInternal ++ changedExternal)) [] [] with
  | error e =>
      rw [execute_error_case name base fn inbox st changedInternal
        changedExternal e hpr] at hok
      cases hok
  | ok pr =>
      have hX := execute_ok_case name base fn inbox st changedInternal
        changedExternal pr hpr
      rw [hX] at hok ⊢
      dsimp only at hok ⊢
      have hchs : chs = (st.outbox.writeAll (pr.2 ++
          deletionChanges st.outputtings.getAllRights
            (carryOver
              (computeBuildPaths st.importations changedInternal
                (changedInternal ++ changedExternal)) st.outputtings
              pr.1).getAllRights)).2 := by
        injection hok with h1
        exact h1.symm
      have hres_some : ∀ ch ∈ pr.2, ch.contents.isSome = true := by
        intro ch hch
        rcases processResults_contents_isSome name base _ _ _ _ pr hpr ch hch
          with h1 | h1
        · cases h1
        · exact h1
      have hres_file : ∀ ch ∈ pr.2, ch.file ∈
          (carryOver
            (computeBuildPaths st.importations changedInternal
              (changedInternal ++ changedExternal)) st.outputtings
            pr.1).getAllRights := by
        intro ch hch
        rcases processResults_file_owned name base _ _ _ _ pr hpr ch hch
          with h1 | ⟨l, hl⟩
        · cases h1
        · exact (PathPairSet.mem_getAllRights _ _).mpr
            ⟨l, (mem_carryOver _ _ _ _).mpr (Or.inl hl)⟩
      have hcore := deletion_diff_core st.outbox pr.2
        st.outputtings.getAllRights
        (carryOver
          (computeBuildPaths st.importations changedInternal
            (changedInternal ++ changedExternal)) st.outputtings
          pr.1).getAllRights
        (nodup_dedupKeepFirst _) hres_some hres_file hlive
      rw [hchs]
      exact hcore

/-- Witness for C2 at a concrete batch: the only input of the stage is
deleted, so the output path it produced last batch comes back exactly
once as a deletion. -/
theorem execute_deletion_diff_witness :
    (Builder.execute "stage" "/src" throwingFn []
        ⟨[], [("/src/a.txt", "/src/out.txt")], [("/src/out.txt", "OLD")]⟩
        ["/src/a.txt"] []).outcome = .ok [⟨"/src/out.txt", none⟩] ∧
    "/src/out.txt" ∈
      PathPairSet.getAllRights [("/src/a.txt", "/src/out.txt")] ∧
    "/src/out.txt" ∉
      (Builder.execute "stage" "/src" throwingFn []
        ⟨[], [("/src/a.txt", "/src/out.txt")], [("/src/out.txt", "OLD")]⟩
        ["/src/a.txt"] []).state.outputtings.getAllRights ∧
    ([(⟨"/src/out.txt", none⟩ : Change)]).count ⟨"/src/out.txt", none⟩ = 1 :=
  ⟨by decide, by decide, by decide,
    (execute_deletion_diff "stage" "/src" throwingFn []
      ⟨[], [("/src/a.txt", "/src/out.txt")], [("/src/out.txt", "OLD")]⟩
      ["/src/a.txt"] [] [⟨"/src/out.txt", none⟩] (by decide)
      (by decide)).1 "/src/out.txt" (by decide) (by decide)⟩

-- ### C4: no-op idempotence of batch

theorem writeAll_establishes (input : List Change) (s : Store)
    (hnd : (input.map (fun e => e.file)).Nodup) :
    ∀ e ∈ input, ((s.writeAll input).1).read e.file = e.contents := by
  induction input generalizing s with
  | nil => intro e he; cases he
  | cons a t ih =>
      rw [List.map_cons] at hnd
      have hnc := List.nodup_cons.mp hnd
      intro e he
      rw [Store.writeAll_cons]
      rcases List.mem_cons.mp he with h1 | h1
      · subst h1
        have hno : ∀ x ∈ t, x.file ≠ e.file := by
          intro x hx hEq
          exact hnc.1 (hEq ▸ List.mem_map_of_mem (fun y => y.file) hx)
        by_cases hw : s.read e.file = e.contents
        · rw [if_pos hw]
          rw [Store.writeAll_read_not_mem t s e.file hno]
          exact hw
        · rw [if_neg hw]
          dsimp only
          rw [Store.writeAll_read_not_mem t _ e.file hno]
          exact Store.read_set_self s e.file e.contents
      · by_cases hw : s.read a.file = a.contents
        · rw [if_pos hw]
          exact ih s hnc.2 e h1
        · rw [if_neg hw]
          dsimp only
          exact ih _ hnc.2 e h1

theorem writeAll_noop (input : List Change) (s : Store)
    (h : ∀ e ∈ input, s.read e.file = e.contents) :
    s.writeAll input = (s, []) := by
  induction input with
  | nil => rfl
  | cons a t ih =>
      rw [Store.writeAll_cons, if_pos (h a (List.mem_cons_self _ _))]
      exact ih (fun e he => h e (List.mem_cons_of_mem _ he))

theorem computeBuildPaths_empty (imps : PathPairSet) (allCh : List String)
    (h : allCh = []) : computeBuildPaths imps [] allCh = [] := by
  subst h
  unfold computeBuildPaths
  have : ∀ (l : PathPairSet) (init : List String),
      l.foldl
        (fun set q =>
          if q.2 ∈ ([] : List String) then
            (if q.1 ∈ set then set else set ++ [q.1])
          else set) init = init := by
    intro l
    induction l with
    | nil => intro init; rfl
    | cons q t ihl =>
        intro init
        rw [List.foldl_cons]
        have hq : ¬ (q.2 ∈ ([] : List String)) := fun hh => by cases hh
        rw [if_neg hq]
        exact ihl init
  rw [this]
  rfl

theorem execute_empty_changes (name base : String) (fn : BuildFn)
    (inbox : Store) (st : BuilderState) :
    (Builder.execute name base fn inbox st [] []).outcome = .ok [] := by
  have hbp : computeBuildPaths st.importations []
      (([] : List String) ++ ([] : List String)) = [] :=
    computeBuildPaths_empty st.importations _ rfl
  have hpr : processResults name base
      (runInvocations name base fn inbox
        (computeBuildPaths st.importations [] ([] ++ [])) []).2.1
      (computeBuildPaths st.importations [] ([] ++ [])) [] [] =
      .ok ([], []) := by
    rw [hbp]
    rfl
  have hX := execute_ok_case name base fn inbox st [] [] ([], []) hpr
  rw [hX]
  dsimp only
  have hdel : deletionChanges st.outputtings.getAllRights
      (carryOver (computeBuildPaths st.importations [] ([] ++ []))
        st.outputtings (([], []) : PathPairSet × List Change).1).getAllRights =
      [] := by
    unfold deletionChanges
    rw [List.map_eq_nil_iff]
    rw [List.filter_eq_nil_iff]
    intro p hp
    rcases (PathPairSet.mem_getAllRights _ _).mp hp with ⟨l, hl⟩
    have : p ∈ (carryOver (computeBuildPaths st.importations [] ([] ++ []))
        st.outputtings []).getAllRights := by
      refine (PathPairSet.mem_getAllRights _ _).mpr ⟨l, ?_⟩
      refine (mem_carryOver _ _ _ _).mpr (Or.inr ⟨hl, ?_⟩)
      rw [hbp]
      intro hh
      cases hh
    simpa using this
  rw [hdel]
  rfl

theorem batch_not_busy (cfg : EngineConfig) (E : EngineState)
    (input : List Change) (changedExternalPaths : List String)
    (h : E.batchRunning = false) :
    Engine.batch cfg E input changedExternalPaths =
      ⟨⟨false, (E.initialInbox.writeAll input).1,
          (stagesLoop cfg.base 0 (cfg.stages.zip E.builders)
            (E.initialInbox.writeAll input).1
            (E.initialInbox.writeAll input).2
            (dedupKeepFirst changedExternalPaths)).1⟩,
        (stagesLoop cfg.base 0 (cfg.stages.zip E.builders)
          (E.initialInbox.writeAll input).1
          (E.initialInbox.writeAll input).2
          (dedupKeepFirst changedExternalPaths)).2.1,
        (stagesLoop cfg.base 0 (cfg.stages.zip E.builders)
          (E.initialInbox.writeAll input).1
          (E.initialInbox.writeAll input).2
          (dedupKeepFirst changedExternalPaths)).2.2.1,
        .ok (stagesLoop cfg.base 0 (cfg.stages.zip E.builders)
          (E.initialInbox.writeAll input).1
          (E.initialInbox.writeAll input).2
          (dedupKeepFirst changedExternalPaths)).2.2.2⟩ := by
  unfold Engine.batch
  rw [h]
  rfl

theorem stagesLoop_empty_changes (base : String) (idx : Nat)
    (pairs : List (StageConfig × BuilderState)) (inbox : Store) :
    (stagesLoop base idx pairs inbox [] []).2.2.2 = [] ∧
    (∀ j, j ∈ ((stagesLoop base idx pairs inbox [] []).2.2.1).map
      (fun e => e.1) → j = idx) := by
  cases pairs with
  | nil => exact ⟨rfl, fun j hj => by cases hj⟩
  | cons cs rest =>
      rcases cs with ⟨c, st⟩
      have hempty : (Builder.execute c.name base c.fn inbox st
          (dedupKeepFirst (List.map (fun ch => ch.file) ([] : List Change)))
          []).outcome = .ok [] :=
        execute_empty_changes c.name base c.fn inbox st
      unfold stagesLoop
      dsimp only
      rw [hempty]
      dsimp only
      rw [if_pos (rfl : ([] : List Change) = [])]
      refine ⟨rfl, ?_⟩
      intro j hj
      rw [List.map_cons] at hj
      rcases List.mem_cons.mp hj with h1 | h1
      · exact h1
      · cases h1

/--
C4 (amended): submitting the identical `{path, contents}` input list
(with pairwise-distinct paths and no external changes) twice in a row
yields an empty result list on the second call - every input-store
write reports no real change; Stage 0's `execute` is still invoked with
an empty change set (so "no Stage is invoked" does not hold, see the
counterexample), but it yields no changes, no build function runs, and
the pipeline stops there.
-/
theorem batch_noop_second (cfg : EngineConfig) (E : EngineState)
    (input : List Change)
    (hrun : E.batchRunning = false)
    (hnd : (input.map (fun e => e.file)).Nodup) :
    (Engine.batch cfg (Engine.batch cfg E input []).state input []).outcome =
        .ok [] ∧
    (∀ j, j ∈ (Engine.batch cfg
        (Engine.batch cfg E input []).state input []).executed → j = 0) := by
  have h1 := batch_not_busy cfg E input [] hrun
  have hrun2 : (Engine.batch cfg E input []).state.batchRunning = false := by
    rw [h1]
  have hread : ∀ e ∈ input,
      ((Engine.batch cfg E input []).state.initialInbox).read e.file =
        e.contents := by
    intro e he
    rw [h1]
    exact writeAll_establishes input E.initialInbox hnd e he
  have hw2 : (Engine.batch cfg E input []).state.initialInbox.writeAll input =
      ((Engine.batch cfg E input []).state.initialInbox, []) :=
    writeAll_noop input _ hread
  have h2 := batch_not_busy cfg (Engine.batch cfg E input []).state input []
    hrun2
  rw [hw2] at h2
  have hext : dedupKeepFirst ([] : List String) = [] := rfl
  rw [hext] at h2
  have hSL := stagesLoop_empty_changes cfg.base 0
    (cfg.stages.zip (Engine.batch cfg E input []).state.builders)
    (Engine.batch cfg E input []).state.initialInbox
  constructor
  · rw [h2]
    dsimp only
    rw [hSL.1]
  · intro j hj
    unfold BatchResult.executed at hj
    rw [h2] at hj
    dsimp only at hj
    exact hSL.2 j hj

/-- A one-stage engine configuration used by the C4 instances: the
builder appends a bang to the contents. -/
def bangFn : BuildFn :=
  ⟨fun _ c => ⟨[], .ok (some (.bufferContents (c ++ "!")))⟩⟩

/-- Witness for C4 (amended) at a concrete one-stage engine. -/
theorem batch_noop_second_witness :
    (Engine.batch ⟨"/src", [⟨"one", bangFn⟩]⟩
        (Engine.batch ⟨"/src", [⟨"one", bangFn⟩]⟩ ⟨false, [], [⟨[], [], []⟩]⟩
          [⟨"/src/a.txt", some "hi"⟩] []).state
        [⟨"/src/a.txt", some "hi"⟩] []).outcome = .ok [] :=
  (batch_noop_second ⟨"/src", [⟨"one", bangFn⟩]⟩ ⟨false, [], [⟨[], [], []⟩]⟩
    [⟨"/src/a.txt", some "hi"⟩] (by decide) (by decide)).1

/-- Counterexample for C4 as stated: on the second identical batch the
result is empty, but Stage 0 IS invoked (the executed-stage trace is
`[0]`, not empty), contradicting "no Stage is invoked". -/
theorem batch_noop_counterexample :
    (Engine.batch ⟨"/src", [⟨"one", bangFn⟩]⟩ ⟨false, [], [⟨[], [], []⟩]⟩
        [⟨"/src/a.txt", some "hi"⟩] []).outcome =
      .ok [⟨"/src/a.txt", some "hi!"⟩] ∧
    (Engine.batch ⟨"/src", [⟨"one", bangFn⟩]⟩
        (Engine.batch ⟨"/src", [⟨"one", bangFn⟩]⟩ ⟨false, [], [⟨[], [], []⟩]⟩
          [⟨"/src/a.txt", some "hi"⟩] []).state
        [⟨"/src/a.txt", some "hi"⟩] []).outcome = .ok [] ∧
    (Engine.batch ⟨"/src", [⟨"one", bangFn⟩]⟩
        (Engine.batch ⟨"/src", [⟨"one", bangFn⟩]⟩ ⟨false, [], [⟨[], [], []⟩]⟩
          [⟨"/src/a.txt", some "hi"⟩] []).state
        [⟨"/src/a.txt", some "hi"⟩] []).executed = [0] ∧
    (Engine.batch ⟨"/src", [⟨"one", bangFn⟩]⟩
        (Engine.batch ⟨"/src", [⟨"one", bangFn⟩]⟩ ⟨false, [], [⟨[], [], []⟩]⟩
          [⟨"/src/a.txt", some "hi"⟩] []).state
        [⟨"/src/a.txt", some "hi"⟩] []).executed ≠ [] := by
  refine ⟨by decide, by decide, by decide, by decide⟩

-- ### C9: pipeline short-circuit preserves later stages

theorem stagesLoop_trace_ge (base : String) :
    ∀ (pairs : List (StageConfig × BuilderState)) (idx : Nat) (inbox : Store)
      (changes : List Change) (ext : List String) (k : Nat)
      (o : Except BuilderError (List Change)),
      (k, o) ∈ (stagesLoop base idx pairs inbox changes ext).2.2.1 →
      idx ≤ k := by
  intro pairs
  induction pairs with
  | nil => intro idx inbox changes ext k o h; cases h
  | cons cs rest ih =>
      intro idx inbox changes ext k o h
      rcases cs with ⟨c, st⟩
      unfold stagesLoop at h
      dsimp only at h
      cases hro : (Builder.execute c.name base c.fn inbox st
          (dedupKeepFirst (changes.map (fun ch => ch.file))) ext).outcome with
      | ok nc =>
          rw [hro] at h
          dsimp only at h
          by_cases hnc : nc = []
          · rw [if_pos hnc] at h
            have h1 := List.mem_singleton.mp h
            injection h1 with h2 h3
            omega
          · rw [if_neg hnc] at h
            rcases List.mem_cons.mp h with h1 | h1
            · injection h1 with h2 h3
              omega
            · have := ih (idx + 1) _ _ _ k o h1
              omega
      | error e =>
          rw [hro] at h
          dsimp only at h
          by_cases hch : changes = []
          · rw [if_pos hch] at h
            have h1 := List.mem_singleton.mp h
            injection h1 with h2 h3
            omega
          · rw [if_neg hch] at h
            rcases List.mem_cons.mp h with h1 | h1
            · injection h1 with h2 h3
              omega
            · have := ih (idx + 1) _ _ _ k o h1
              omega

theorem stagesLoop_short_circuit (base : String) :
    ∀ (pairs : List (StageConfig × BuilderState)) (idx : Nat) (inbox : Store)
      (changes : List Change) (ext : List String) (i : Nat),
      (i, Except.ok ([] : List Change)) ∈
        (stagesLoop base idx pairs inbox changes ext).2.2.1 →
      ∀ j, i < j →
        (j ∉ ((stagesLoop base idx pairs inbox changes ext).2.2.1).map
          (fun e => e.1)) ∧
        ((stagesLoop base idx pairs inbox changes ext).1)[j - idx]? =
          (pairs.map (fun e => e.2))[j - idx]? := by
  intro pairs
  induction pairs with
  | nil => intro idx inbox changes ext i h; cases h
  | cons cs rest ih =>
      intro idx inbox changes ext i h j hij
      rcases cs with ⟨c, st⟩
      unfold stagesLoop at h ⊢
      dsimp only at h ⊢
      cases hro : (Builder.execute c.name base c.fn inbox st
          (dedupKeepFirst (changes.map (fun ch => ch.file))) ext).outcome with
      | ok nc =>
          rw [hro] at h
          dsimp only at h ⊢
          by_cases hnc : nc = []
          · rw [if_pos hnc] at h ⊢
            have h1 := List.mem_singleton.mp h
            injection h1 with h2 h3
            have hjm : j - idx = (j - (idx + 1)) + 1 := by omega
            constructor
            · rw [List.map_singleton]
              intro hmem
              have h4 := List.mem_singleton.mp hmem
              omega
            · dsimp only
              rw [hjm, List.map_cons]
              rfl
          · rw [if_neg hnc] at h ⊢
            rcases List.mem_cons.mp h with h1 | h1
            · injection h1 with h2 h3
              injection h3 with h4
              exact absurd h4.symm hnc
            · have hge := stagesLoop_trace_ge base rest (idx + 1) _ _ _ i _ h1
              have hIH := ih (idx + 1) _ _ _ i h1 j hij
              have hjm : j - idx = (j - (idx + 1)) + 1 := by omega
              constructor
              · rw [List.map_cons]
                intro hmem
                rcases List.mem_cons.mp hmem with h2 | h2
                · omega
                · exact hIH.1 h2
              · rw [hjm, List.map_cons]
                dsimp only
                rw [List.getElem?_cons_succ, List.getElem?_cons_succ]
                exact hIH.2
      | error e =>
          rw [hro] at h
          dsimp only at h ⊢
          by_cases hch : changes = []
          · rw [if_pos hch] at h
            have h1 := List.mem_singleton.mp h
            injection h1 with h2 h3
            cases h3
          · rw [if_neg hch] at h ⊢
            rcases List.mem_cons.mp h with h1 | h1
            · injection h1 with h2 h3
              cases h3
            · have hge := stagesLoop_trace_ge base rest (idx + 1) _ _ _ i _ h1
              have hIH := ih (idx + 1) _ _ _ i h1 j hij
              have hjm : j - idx = (j - (idx + 1)) + 1 := by omega
              constructor
              · rw [List.map_cons]
                intro hmem
                rcases List.mem_cons.mp hmem with h2 | h2
                · omega
                · exact hIH.1 h2
              · rw [hjm, List.map_cons]
                dsimp only
                rw [List.getElem?_cons_succ, List.getElem?_cons_succ]
                exact hIH.2

/--
C9: if, during a batch, Stage `i`'s `execute` yields an empty change
list, then no later stage's `execute` is invoked in that batch, and
every later stage's builder state - its dependency store, output store
and outbox - is exactly what it was before the batch.
-/
theorem batch_short_circuit (cfg : EngineConfig) (E : EngineState)
    (input : List Change) (changedExternalPaths : List String) (i j : Nat)
    (hlen : cfg.stages.length = E.builders.length)
    (htrace : (i, Except.ok ([] : List Change)) ∈
      (Engine.batch cfg E input changedExternalPaths).trace)
    (hij : i < j) :
    j ∉ (Engine.batch cfg E input changedExternalPaths).executed ∧
    (Engine.batch cfg E input changedExternalPaths).state.builders[j]? =
      E.builders[j]? := by
  cases hrun : E.batchRunning with
  | true =>
      rw [batch_busy_rejected cfg E input changedExternalPaths hrun] at htrace
      cases htrace
  | false =>
      have hb := batch_not_busy cfg E input changedExternalPaths hrun
      rw [hb] at htrace ⊢
      dsimp only at htrace ⊢
      have hSL := stagesLoop_short_circuit cfg.base
        (cfg.stages.zip E.builders) 0
        (E.initialInbox.writeAll input).1 (E.initialInbox.writeAll input).2
        (dedupKeepFirst changedExternalPaths) i htrace j hij
      have hzip : (cfg.stages.zip E.builders).map (fun e => e.2) =
          E.builders := by
        have := List.map_snd_zip cfg.stages E.builders (le_of_eq hlen.symm)
        simpa using this
      rw [hzip] at hSL
      rw [Nat.sub_zero] at hSL
      unfold BatchResult.executed
      dsimp only
      exact hSL

/-- Witness for C9 at a concrete two-stage engine: Stage 0 yields no
changes, so Stage 1 is not invoked and its bookkeeping is untouched. -/
theorem batch_short_circuit_witness :
    1 ∉ (Engine.batch ⟨"/src", [⟨"one", bangFn⟩, ⟨"two", bangFn⟩]⟩
        ⟨false, [], [⟨[], [], []⟩, ⟨[("/src/x", "/src/y")], [], []⟩]⟩
        [] []).executed ∧
    (Engine.batch ⟨"/src", [⟨"one", bangFn⟩, ⟨"two", bangFn⟩]⟩
        ⟨false, [], [⟨[], [], []⟩, ⟨[("/src/x", "/src/y")], [], []⟩]⟩
        [] []).state.builders[1]? =
      ([(⟨[], [], []⟩ : BuilderState),
        ⟨[("/src/x", "/src/y")], [], []⟩] : List BuilderState)[1]? :=
  batch_short_circuit ⟨"/src", [⟨"one", bangFn⟩, ⟨"two", bangFn⟩]⟩
    ⟨false, [], [⟨[], [], []⟩, ⟨[("/src/x", "/src/y")], [], []⟩]⟩
    [] [] 0 1 (by decide) (by decide) (by decide)
